import Mathlib

/-!
A shallow embedding of `src/index.js` of process-args.

The module exports one function, `getProcessArgs`, which scans a list of command-line
tokens once, left to right, and builds a result object with a `positional` field and one
field per named argument.

Modelling decisions, all taken from the source and from the language it is written in:

* A JavaScript string is the list of its UTF-16 code units (`JSString`); `length`, `slice`,
  `indexOf` and `startsWith` count code units exactly as the engine does.
* `Number(value)` follows the `StringNumericLiteral` grammar of ECMAScript
  (surrounding white space, sign, decimal literal with fraction and exponent, `Infinity`,
  binary / octal / hexadecimal integers).  A finite result is kept as the exact decimal value
  of the literal, `± mantissa · 10 ^ exponent`, in canonical form; rounding to an IEEE double
  is not modelled.
* `JSON.parse` and `process.argv.slice(2)` are supplied by the host (`Host`).
* A thrown exception is the `error` case of `Except`.
* The hook `getParser` and the functions it returns are pure functions that yield fresh
  values; `console.log` diagnostics are write-only and are left out.
* The file is a CommonJS module without a strict-mode directive, so an assignment to a
  property of a primitive is silently ignored.
-/

namespace ProcessArgs

/-! ## Strings -/

/-- A JavaScript string, as the list of its UTF-16 code units. -/
abbrev JSString := List Nat

/-- The UTF-16 code units of one Unicode scalar value. -/
def utf16Char (c : Char) : List Nat :=
  if c.toNat < 0x10000 then [c.toNat]
  else [0xD800 + (c.toNat - 0x10000) / 0x400, 0xDC00 + (c.toNat - 0x10000) % 0x400]

/-- The JavaScript string written by a string literal. -/
def utf16 (s : String) : JSString :=
  (s.toList.map utf16Char).flatten

/-- `s.startsWith(p)`. -/
def startsWith (s p : JSString) : Bool :=
  p.isPrefixOf s

/-- Search of `s.indexOf(sub)`, `k` being the index of the head of `s`. -/
def indexOfFrom (sub : JSString) : JSString → Nat → Int
  | [], k => if sub = [] then (k : Int) else -1
  | c :: cs, k => if sub.isPrefixOf (c :: cs) then (k : Int) else indexOfFrom sub cs (k + 1)

/-- `s.indexOf(sub)`: the index of the first occurrence, or `-1`. -/
def indexOf (s sub : JSString) : Int :=
  indexOfFrom sub s 0

/-- Resolution of a relative index of `slice` against a length: a negative index counts from
the end, and the result is clamped to `[0, len]`. -/
def relativeIndex (len : Nat) (x : Int) : Nat :=
  if x < 0 then ((len : Int) + x).toNat else min x.toNat len

/-- `s.slice(start, stop)`. -/
def slice (s : JSString) (start stop : Int) : JSString :=
  (s.drop (relativeIndex s.length start)).take
    (relativeIndex s.length stop - relativeIndex s.length start)

/-- `s.slice(start)`. -/
def sliceFrom (s : JSString) (start : Int) : JSString :=
  s.drop (relativeIndex s.length start)

/-- Lower-casing of one code unit.  Only `A`–`Z` are mapped: `toLocaleLowerCase` is used by
the source for nothing but a comparison with `"true"` and `"false"`, and no other character
has a lower-case form among the letters of these two words in any locale. -/
def lowerUnit (c : Nat) : Nat :=
  if 65 ≤ c ∧ c ≤ 90 then c + 32 else c

/-- `s.toLocaleLowerCase()`, see `lowerUnit`. -/
def toLocaleLowerCase (s : JSString) : JSString :=
  s.map lowerUnit

/-- `s.charAt(0)`: the first code unit as a string, or the empty string. -/
def charAt0 (s : JSString) : JSString :=
  s.take 1

/-- Decimal representation of a natural number, as `String(i)` gives for an array index. -/
def natToString (n : Nat) : JSString :=
  utf16 (toString n)

/-! ## Numbers -/

/-- A JavaScript number.  A finite value is `± mantissa · 10 ^ exponent`, canonical when the
mantissa is not a multiple of ten (and the exponent is `0` for a zero mantissa). -/
inductive JSNumber where
  | nan
  | posInf
  | negInf
  | finite (negative : Bool) (mantissa : Nat) (exponent : Int)
  deriving DecidableEq, Repr

/-- `WhiteSpace` and `LineTerminator` code points of ECMAScript (`StrWhiteSpaceChar`). -/
def isStrWhiteSpaceChar (c : Nat) : Bool :=
  c == 0x9 || c == 0xA || c == 0xB || c == 0xC || c == 0xD || c == 0x20 || c == 0xA0 ||
  c == 0x1680 || (0x2000 ≤ c && c ≤ 0x200A) || c == 0x2028 || c == 0x2029 || c == 0x202F ||
  c == 0x205F || c == 0x3000 || c == 0xFEFF

/-- Removal of leading and trailing `StrWhiteSpaceChar`s. -/
def trimWhiteSpace (s : JSString) : JSString :=
  (((s.dropWhile isStrWhiteSpaceChar).reverse).dropWhile isStrWhiteSpaceChar).reverse

def isDecimalDigit (c : Nat) : Bool :=
  48 ≤ c && c ≤ 57

def isBinaryDigit (c : Nat) : Bool :=
  c == 48 || c == 49

def isOctalDigit (c : Nat) : Bool :=
  48 ≤ c && c ≤ 55

def isHexDigit (c : Nat) : Bool :=
  (48 ≤ c && c ≤ 57) || (97 ≤ c && c ≤ 102) || (65 ≤ c && c ≤ 70)

/-- Value of one digit (decimal or hexadecimal). -/
def digitValue (c : Nat) : Nat :=
  if 48 ≤ c ∧ c ≤ 57 then c - 48
  else if 97 ≤ c ∧ c ≤ 102 then c - 87
  else c - 55

/-- The mathematical value of a digit string in a base. -/
def digitsValue (base : Nat) (ds : JSString) : Nat :=
  ds.foldl (fun acc d => acc * base + digitValue d) 0

/-- Canonical form of `m · 10 ^ e`: trailing decimal zeros of `m` move into the exponent. -/
def canonical : Nat → Nat → Int → Nat × Int
  | 0, m, e => if m = 0 then (0, 0) else (m, e)
  | fuel + 1, m, e =>
    if m = 0 then (0, 0)
    else if m % 10 = 0 then canonical fuel (m / 10) (e + 1)
    else (m, e)

/-- The finite number `± m · 10 ^ e`. -/
def mkFinite (negative : Bool) (m : Nat) (e : Int) : JSNumber :=
  .finite negative (canonical m m e).1 (canonical m m e).2

/-- `ExponentPart` (optional): the text after the digits of a decimal literal. -/
def exponentPart : JSString → Option Int
  | [] => some 0
  | c :: rest =>
    if c = 101 ∨ c = 69 then
      match rest with
      | 43 :: ds =>
        if ds ≠ [] ∧ ds.all isDecimalDigit then some (digitsValue 10 ds) else none
      | 45 :: ds =>
        if ds ≠ [] ∧ ds.all isDecimalDigit then some (-(digitsValue 10 ds : Int)) else none
      | ds =>
        if ds ≠ [] ∧ ds.all isDecimalDigit then some (digitsValue 10 ds) else none
    else none

/-- `StrUnsignedDecimalLiteral` other than `Infinity`: mantissa and exponent of the value. -/
def unsignedDecimal (s : JSString) : Option (Nat × Int) :=
  let intPart := s.takeWhile isDecimalDigit
  match s.dropWhile isDecimalDigit with
  | 46 :: afterDot =>
    let fracPart := afterDot.takeWhile isDecimalDigit
    if intPart = [] ∧ fracPart = [] then none
    else
      (exponentPart (afterDot.dropWhile isDecimalDigit)).map
        (fun e => (digitsValue 10 (intPart ++ fracPart), e - (fracPart.length : Int)))
  | rest =>
    if intPart = [] then none
    else (exponentPart rest).map (fun e => (digitsValue 10 intPart, e))

/-- `StrUnsignedDecimalLiteral` with the sign already read. -/
def signedDecimal (negative : Bool) (s : JSString) : JSNumber :=
  if s = utf16 "Infinity" then (if negative then .negInf else .posInf)
  else
    match unsignedDecimal s with
    | some (m, e) => mkFinite negative m e
    | none => .nan

/-- `NonDecimalIntegerLiteral`: `0b`, `0o` and `0x` integers (no sign is allowed). -/
def nonDecimalInteger (s : JSString) : Option Nat :=
  match s with
  | 48 :: k :: ds =>
    if (k = 98 ∨ k = 66) ∧ ds ≠ [] ∧ ds.all isBinaryDigit then some (digitsValue 2 ds)
    else if (k = 111 ∨ k = 79) ∧ ds ≠ [] ∧ ds.all isOctalDigit then some (digitsValue 8 ds)
    else if (k = 120 ∨ k = 88) ∧ ds ≠ [] ∧ ds.all isHexDigit then some (digitsValue 16 ds)
    else none
  | _ => none

/-- `StrNumericLiteral`. -/
def strNumericLiteral (s : JSString) : JSNumber :=
  match nonDecimalInteger s with
  | some n => mkFinite false n 0
  | none =>
    match s with
    | 43 :: rest => signedDecimal false rest
    | 45 :: rest => signedDecimal true rest
    | _ => signedDecimal false s

/-- `Number(value)` for a string (the abstract operation `StringToNumber`): white space is
trimmed, the empty remainder is `0`, and text that is no numeric literal is `NaN`. -/
def Number (value : JSString) : JSNumber :=
  match trimWhiteSpace value with
  | [] => .finite false 0 0
  | s => strNumericLiteral s

/-- `isNaN(value)` for a string: the string is first converted with `Number`. -/
def isNaN (value : JSString) : Bool :=
  Number value == .nan

/-! ## Values, errors and the host -/

/-- A JavaScript value as far as the parser can produce or store one.  An array is a list
of slots, `none` being a hole; an object is the list of its own properties. -/
inductive JSValue where
  | undefined
  | null
  | bool (b : Bool)
  | number (n : JSNumber)
  | string (s : JSString)
  | array (items : List (Option JSValue))
  | object (props : List (JSString × JSValue))

mutual
/-- Structural equality test on values. -/
def JSValue.beq : JSValue → JSValue → Bool
  | .undefined, .undefined => true
  | .null, .null => true
  | .bool a, .bool b => a == b
  | .number a, .number b => a == b
  | .string a, .string b => a == b
  | .array xs, .array ys => JSValue.beqItems xs ys
  | .object ps, .object qs => JSValue.beqProps ps qs
  | _, _ => false
/-- Structural equality test on the slots of an array. -/
def JSValue.beqItems : List (Option JSValue) → List (Option JSValue) → Bool
  | [], [] => true
  | none :: xs, none :: ys => JSValue.beqItems xs ys
  | some x :: xs, some y :: ys => JSValue.beq x y && JSValue.beqItems xs ys
  | _, _ => false
/-- Structural equality test on the properties of an object. -/
def JSValue.beqProps : List (JSString × JSValue) → List (JSString × JSValue) → Bool
  | [], [] => true
  | (k, x) :: ps, (l, y) :: qs => k == l && JSValue.beq x y && JSValue.beqProps ps qs
  | _, _ => false
end

/-- A thrown exception. -/
inductive JSError where
  | typeError
  | syntaxError
  | thrown (v : JSValue)

/-- What the program takes from its host: `JSON.parse` (which throws on text that is not
JSON) and `process.argv.slice(2)`. -/
structure Host where
  jsonParse : JSString → Except JSError JSValue
  argv : List JSString

/-- The identifier handed to `getParser`: an argument name, or a token index. -/
inductive ArgId where
  | name (s : JSString)
  | index (i : Nat)

/-- A custom parser returned by the hook: it receives the raw string and may throw. -/
abbrev CustomParser := JSString → Except JSError JSValue

/-- The hook `getParser`: it may throw, and what it returns is a function (`some`) or
something else (`none`). -/
abbrev GetParser := ArgId → Except JSError (Option CustomParser)

/-! ## `ProcessArgsParser` (lines 6-24) -/

/-- The default coercion. -/
def ProcessArgsParser (h : Host) (value : JSValue) : Except JSError JSValue :=
  match value with
  | .string s =>
    if !isNaN s then .ok (.number (Number s))
    else
      let lowerValue := toLocaleLowerCase s
      if lowerValue = utf16 "true" then .ok (.bool true)
      else if lowerValue = utf16 "false" then .ok (.bool false)
      else
        let firstChar := charAt0 s
        if firstChar = utf16 "\x7b" ∨ firstChar = utf16 "[" then h.jsonParse s
        else .ok value
  | _ => .ok value

/-! ## `ProcessArgsOptions` (lines 37-74) -/

/-- The options object handed to `getProcessArgs`, field by field.  `none` stands for a
field that is missing or, for the three lists, is not an array; the entries of an array are
arbitrary values. -/
structure RawOptions where
  arguments : Option (List JSValue) := none
  prefixes : Option (List JSValue) := none
  delimiters : Option (List JSValue) := none
  keepPositionalIndices : JSValue := .undefined
  getParser : Option GetParser := none

/-- The entries of an array for which `typeof x === "string"`. -/
def filterStrings : List JSValue → List JSString
  | [] => []
  | .string s :: rest => s :: filterStrings rest
  | _ :: rest => filterStrings rest

/-- The resolved options. -/
structure ProcessArgsOptions where
  arguments : List JSString
  prefixes : List JSString
  delimiters : List JSString
  keepPositionalIndices : Bool
  getParser : Option GetParser

/-- The constructor `ProcessArgsOptions`. -/
def ProcessArgsOptions.new (h : Host) (options : RawOptions) : ProcessArgsOptions where
  arguments :=
    match options.arguments with
    | some xs => filterStrings xs
    | none => h.argv
  prefixes :=
    match options.prefixes with
    | some xs => filterStrings xs
    | none => [utf16 "--", utf16 "-"]
  delimiters :=
    match options.delimiters with
    | some xs => filterStrings xs
    | none => [utf16 ":", utf16 "="]
  keepPositionalIndices :=
    match options.keepPositionalIndices with
    | .bool b => b
    | _ => false
  getParser := options.getParser

/-! ## `processValue` (lines 100-123) -/

/-- The parser `processValue` ends up with: the default one, unless the hook exists, does
not throw, and returns a function. -/
def selectParser (h : Host) (o : ProcessArgsOptions) (name : ArgId) : CustomParser :=
  match o.getParser with
  | none => fun value => ProcessArgsParser h (.string value)
  | some getParser =>
    match getParser name with
    | .ok (some customParser) => customParser
    | .ok none => fun value => ProcessArgsParser h (.string value)
    | .error _ => fun value => ProcessArgsParser h (.string value)

/-- The coerced value of an argument: the parser's result, or the raw value when the
parser throws. -/
def processValue (h : Host) (o : ProcessArgsOptions) (name : ArgId) (value : JSString) :
    JSValue :=
  match selectParser h o name value with
  | .ok v => v
  | .error _ => .string value

/-! ## `getValue` (lines 129-146) -/

/-- The record `identifiedDelimiter`. -/
structure IdentifiedDelimiter where
  delimiter : JSString
  index : Int

/-- The loop of `getValue` over the delimiters. -/
def identifyDelimiter (arg : JSString) :
    List JSString → IdentifiedDelimiter → IdentifiedDelimiter
  | [], identified => identified
  | delimiter :: rest, identified =>
    if delimiter ≠ [] then
      let indexOfDelimiter := indexOf arg delimiter
      if indexOfDelimiter ≥ 0 ∧ (identified.index < 0 ∨ indexOfDelimiter < identified.index) then
        identifyDelimiter arg rest { delimiter := delimiter, index := indexOfDelimiter }
      else identifyDelimiter arg rest identified
    else identifyDelimiter arg rest identified

/-- The inline value of a remainder, `none` being `undefined`. -/
def getValue (o : ProcessArgsOptions) (arg : JSString) : Option JSString :=
  let identifiedDelimiter :=
    identifyDelimiter arg o.delimiters { delimiter := [], index := -1 }
  if identifiedDelimiter.index ≥ 0 then
    some (sliceFrom arg (identifiedDelimiter.index + (identifiedDelimiter.delimiter.length : Int)))
  else none

/-! ## The result object -/

/-- The object `retVal`: its own properties in the order of their creation, and its
prototype.  `proto` is `none` while the prototype is `Object.prototype`, and holds the value
a `__proto__` assignment has put in its place. -/
structure RetVal where
  proto : Option JSValue := none
  props : List (JSString × JSValue)

/-- Lookup of an own property. -/
def getOwn : List (JSString × JSValue) → JSString → Option JSValue
  | [], _ => none
  | (k', v) :: rest, k => if k' = k then some v else getOwn rest k

/-- Creation or update of an own data property; an existing property keeps its place. -/
def setOwn : List (JSString × JSValue) → JSString → JSValue → List (JSString × JSValue)
  | [], k, v => [(k, v)]
  | (k', v') :: rest, k, v => if k' = k then (k, v) :: rest else (k', v') :: setOwn rest k v

/-- Whether an assignment to `__proto__` reaches the accessor of `Object.prototype`: it does
unless the chain was cut (`null`) or the replaced prototype has an own `__proto__` property. -/
def protoSetterInherited : Option JSValue → Bool
  | some .null => false
  | some (.object props) => (getOwn props (utf16 "__proto__")).isNone
  | _ => true

/-- The assignment `retVal[key] = value`.  Every key makes or updates an own property, but
`__proto__`: while that accessor is inherited, an object, array or `null` replaces the
prototype and any other value is dropped. -/
def assign (retVal : RetVal) (key : JSString) (value : JSValue) : RetVal :=
  if key = utf16 "__proto__" ∧ (getOwn retVal.props key).isNone
      ∧ protoSetterInherited retVal.proto then
    match value with
    | .object _ => { retVal with proto := some value }
    | .array _ => { retVal with proto := some value }
    | .null => { retVal with proto := some value }
    | _ => retVal
  else { retVal with props := setOwn retVal.props key value }

/-- The call `target.push(value)`: only an array has a `push` method, on anything else the
call throws a `TypeError`. -/
def push (target : JSValue) (value : JSValue) : Except JSError JSValue :=
  match target with
  | .array items => .ok (.array (items ++ [some value]))
  | _ => .error .typeError

/-- Assignment to slot `i` of an array, which grows with holes as needed. -/
def setSlot : List (Option JSValue) → Nat → JSValue → List (Option JSValue)
  | [], 0, v => [some v]
  | [], i + 1, v => none :: setSlot [] i v
  | _ :: rest, 0, v => some v :: rest
  | x :: rest, i + 1, v => x :: setSlot rest i v

/-- The assignment `target[i] = value`: a slot of an array, the property `String(i)` of an
object, a `TypeError` on `undefined` and `null`, and nothing on another primitive. -/
def setIndex (target : JSValue) (i : Nat) (value : JSValue) : Except JSError JSValue :=
  match target with
  | .array items => .ok (.array (setSlot items i value))
  | .object props => .ok (.object (setOwn props (natToString i) value))
  | .undefined => .error .typeError
  | .null => .error .typeError
  | other => .ok other

/-- The value read by `retVal.positional`.  The property is an own property from line 147 on
and nothing deletes it; were it missing the read would give `undefined`. -/
def readPositional (retVal : RetVal) : JSValue :=
  (getOwn retVal.props (utf16 "positional")).getD .undefined

/-- The positional branch (lines 174-181): `retVal.positional[i] = value` or
`retVal.positional.push(value)`, either of which changes the object `positional` holds. -/
def storePositional (o : ProcessArgsOptions) (retVal : RetVal) (i : Nat) (value : JSValue) :
    Except JSError RetVal :=
  if o.keepPositionalIndices then
    (setIndex (readPositional retVal) i value).map
      (fun target => { retVal with props := setOwn retVal.props (utf16 "positional") target })
  else
    (push (readPositional retVal) value).map
      (fun target => { retVal with props := setOwn retVal.props (utf16 "positional") target })

/-! ## `getProcessArgs` (lines 92-184) -/

/-- Truthiness of a string that may be `undefined`: it is there and is not empty. -/
def truthy : Option JSString → Bool
  | some (_ :: _) => true
  | _ => false

/-- The first configured prefix the token starts with (the loop over `j`). -/
def matchedPrefix (o : ProcessArgsOptions) (arg : JSString) : Option JSString :=
  o.prefixes.find? (fun p => startsWith arg p)

/-- The condition of line 165: there is no next token to take, or it is a named one. -/
def isBareFlag (o : ProcessArgsOptions) (nextArg : Option JSString) : Bool :=
  !truthy nextArg || o.prefixes.any (fun p => startsWith (nextArg.getD []) p)

/-- The loop over the tokens: `i` is the index of the head of the list, the list is what is
left of `options.arguments` from `i` on, so that `arguments[i + 1]` is the head of `rest`.
A flag with no token after it ends the loop with its assignment; the look-ahead branch goes
on two tokens further (`i++` of line 170 and the increment of the loop). -/
def scan (h : Host) (o : ProcessArgsOptions) : Nat → List JSString → RetVal → Except JSError RetVal
  | _, [], retVal => .ok retVal
  | i, arg :: rest, retVal =>
    match matchedPrefix o arg with
    | some p =>
      let arg := sliceFrom arg p.length
      let argValue := getValue o arg
      if truthy argValue then
        let argName := slice arg 0 ((arg.length : Int) - ((argValue.getD []).length : Int) - 1)
        scan h o (i + 1) rest
          (assign retVal argName (processValue h o (.name argName) (argValue.getD [])))
      else
        match rest with
        | [] => .ok (assign retVal arg (.bool true))
        | nextArg :: rest' =>
          if isBareFlag o (some nextArg) then
            scan h o (i + 1) (nextArg :: rest') (assign retVal arg (.bool true))
          else
            scan h o (i + 2) rest' (assign retVal arg (processValue h o (.name arg) nextArg))
    | none =>
      match storePositional o retVal i (processValue h o (.index i) arg) with
      | .ok retVal' => scan h o (i + 1) rest retVal'
      | .error e => .error e

/-- The assignments `retVal[key] = value` the loop makes for named tokens, in the order it
makes them.  The function follows `scan` branch by branch and keeps the key and the value
of each assignment. -/
def namedWrites (h : Host) (o : ProcessArgsOptions) :
    List JSString → List (JSString × JSValue)
  | [] => []
  | arg :: rest =>
    match matchedPrefix o arg with
    | some p =>
      let arg := sliceFrom arg p.length
      let argValue := getValue o arg
      if truthy argValue then
        let argName := slice arg 0 ((arg.length : Int) - ((argValue.getD []).length : Int) - 1)
        (argName, processValue h o (.name argName) (argValue.getD [])) :: namedWrites h o rest
      else
        match rest with
        | [] => [(arg, .bool true)]
        | nextArg :: rest' =>
          if isBareFlag o (some nextArg) then
            (arg, .bool true) :: namedWrites h o (nextArg :: rest')
          else
            (arg, processValue h o (.name arg) nextArg) :: namedWrites h o rest'
    | none => namedWrites h o rest

/-- The value of the last pair with key `k` in a list of assignments. -/
def lastWrite (k : JSString) : List (JSString × JSValue) → Option JSValue
  | [] => none
  | (k', v) :: rest =>
    match lastWrite k rest with
    | some v' => some v'
    | none => if k' = k then some v else none

/-- The initial value of `retVal` (lines 147-149). -/
def initialRetVal : RetVal :=
  { props := [(utf16 "positional", .array [])] }

/-- The exported function. -/
def getProcessArgs (h : Host) (options : RawOptions) : Except JSError RetVal :=
  let o := ProcessArgsOptions.new h options
  scan h o 0 o.arguments initialRetVal

/-! ## Inputs used to state the results -/

/-- The options that give only the token list, everything else being left to its default. -/
def tokensOnly (tokens : List String) : RawOptions :=
  { arguments := some (tokens.map (fun s => JSValue.string (utf16 s))) }

/-- A host whose `JSON.parse` throws on every text and whose command line is empty. -/
def plainHost : Host :=
  { jsonParse := fun _ => .error .syntaxError, argv := [] }

/-- A host whose `JSON.parse` reads the text `[]`, the empty array, and throws on every
other text. -/
def emptyArrayHost : Host :=
  { jsonParse := fun s => if s = utf16 "[]" then .ok (.array []) else .error .syntaxError,
    argv := [] }

/-- The resolved default configuration: prefixes `--` and `-`, delimiters `:` and `=`,
`keepPositionalIndices` false, no hook. -/
def defaultOptions : ProcessArgsOptions :=
  ProcessArgsOptions.new plainHost {}

/-- A string without the code units of `{` and `[`. -/
def plain (s : JSString) : Bool :=
  s.all (fun c => c != 123 && c != 91)

/-- The host `h` started with the given command line (`process.argv.slice(2)`). -/
def withCommandLine (h : Host) (tokens : List String) : Host :=
  { h with argv := tokens.map utf16 }

/-- A hook that returns, for every argument, the function that keeps the raw string. -/
def identityHook : GetParser :=
  fun _ => .ok (some (fun value => .ok (.string value)))

/-- A hook whose functions pair the identifier they were fetched with and the raw string:
the name for a named argument, the token index for a positional one. -/
def taggingHook : GetParser :=
  fun id =>
    match id with
    | .name n => .ok (some (fun value => .ok (.array [some (.string n), some (.string value)])))
    | .index i =>
      .ok (some (fun value =>
        .ok (.array [some (.number (mkFinite false i 0)), some (.string value)])))

/-- A hook that returns, for every argument, a function that throws. -/
def throwingParserHook : GetParser :=
  fun _ => .ok (some (fun _ => .error (.thrown .undefined)))

/-- A hook that throws for every argument. -/
def throwingHook : GetParser :=
  fun _ => .error (.thrown .undefined)

/-- What the loop does with a token: it is a named argument, it is taken by the named
argument before it as its value, or it is a positional argument. -/
inductive Role where
  | named
  | lookAhead
  | positional
  deriving DecidableEq

/-- The role of each token of a list, with the text the loop works on: the remainder for a
named argument, the token itself otherwise.  The function follows `scan` branch by
branch. -/
def roles (o : ProcessArgsOptions) : List JSString → List (JSString × Role)
  | [] => []
  | arg :: rest =>
    match matchedPrefix o arg with
    | some p =>
      let arg := sliceFrom arg p.length
      let argValue := getValue o arg
      if truthy argValue then (arg, .named) :: roles o rest
      else
        match rest with
        | [] => [(arg, .named)]
        | nextArg :: rest' =>
          if isBareFlag o (some nextArg) then (arg, .named) :: roles o (nextArg :: rest')
          else (arg, .named) :: (nextArg, .lookAhead) :: roles o rest'
    | none => (arg, .positional) :: roles o rest

/-- The result object with the holes of its `positional` array (`items`) removed. -/
def withoutHoles (retVal : RetVal) (items : List (Option JSValue)) : RetVal :=
  { retVal with
    props := setOwn retVal.props (utf16 "positional") (.array (items.filter Option.isSome)) }

/-- What slot `i + j` of `positional` is to hold when the index of the head of `toks` is `i`
and original indices are kept: the coercion of token `j` of `toks` when that token is
positional, and nothing otherwise. -/
def expectedSlot (h : Host) (o : ProcessArgsOptions) (i : Nat) (toks : List JSString)
    (j : Nat) : Option JSValue :=
  match (roles o toks)[j]? with
  | some (t, .positional) => some (processValue h o (.index (i + j)) t)
  | _ => none

/-- The test `typeof x === "string"`. -/
def isString : JSValue → Bool
  | .string _ => true
  | _ => false

/-- The value at index `i` of an array: `none` for a hole and for an index beyond the end. -/
def slotAt (items : List (Option JSValue)) (i : Nat) : Option JSValue :=
  (items[i]?).join

/-- The two runs over `toks` from index `i` on, one keeping original indices and started on
`retVal` whose `positional` array is `items`, the other appending and started on the same
object without the holes, both return; the results differ by the holes of `positional` only;
and the slots of the first are those before `i` as they were, then those the tokens call for. -/
def KeepModesAgree (h : Host) (o : ProcessArgsOptions) (i : Nat) (toks : List JSString)
    (retVal : RetVal) (items : List (Option JSValue)) : Prop :=
  ∃ r items',
    scan h { o with keepPositionalIndices := true } i toks retVal = .ok r
    ∧ readPositional r = .array items'
    ∧ scan h { o with keepPositionalIndices := false } i toks (withoutHoles retVal items)
      = .ok (withoutHoles r items')
    ∧ (∀ j, j < i → slotAt items' j = slotAt items j)
    ∧ (∀ j, slotAt items' (i + j) = expectedSlot h o i toks j)

/-! ## Decidable equality of values and results -/

mutual
theorem JSValue.eq_of_beq : ∀ (a b : JSValue), JSValue.beq a b = true → a = b
  | .undefined, b, h => by cases b <;> simp_all [JSValue.beq]
  | .null, b, h => by cases b <;> simp_all [JSValue.beq]
  | .bool _, b, h => by cases b <;> simp_all [JSValue.beq]
  | .number _, b, h => by cases b <;> simp_all [JSValue.beq]
  | .string _, b, h => by cases b <;> simp_all [JSValue.beq]
  | .array xs, b, h => by
    cases b <;> simp [JSValue.beq] at h
    rename_i ys
    exact congrArg _ (JSValue.eq_of_beqItems xs ys h)
  | .object ps, b, h => by
    cases b <;> simp [JSValue.beq] at h
    rename_i qs
    exact congrArg _ (JSValue.eq_of_beqProps ps qs h)
theorem JSValue.eq_of_beqItems :
    ∀ (xs ys : List (Option JSValue)), JSValue.beqItems xs ys = true → xs = ys
  | [], ys, h => by cases ys <;> simp_all [JSValue.beqItems]
  | none :: xs, ys, h => by
    rcases ys with _ | ⟨_ | y, ys⟩ <;> simp [JSValue.beqItems] at h
    simp [JSValue.eq_of_beqItems xs ys h]
  | some x :: xs, ys, h => by
    rcases ys with _ | ⟨_ | y, ys⟩ <;> simp [JSValue.beqItems] at h
    simp [JSValue.eq_of_beq x y h.1, JSValue.eq_of_beqItems xs ys h.2]
theorem JSValue.eq_of_beqProps :
    ∀ (ps qs : List (JSString × JSValue)), JSValue.beqProps ps qs = true → ps = qs
  | [], qs, h => by cases qs <;> simp_all [JSValue.beqProps]
  | (k, x) :: ps, qs, h => by
    rcases qs with _ | ⟨⟨l, y⟩, qs⟩ <;> simp [JSValue.beqProps] at h
    simp [h.1.1, JSValue.eq_of_beq x y h.1.2, JSValue.eq_of_beqProps ps qs h.2]
end

mutual
theorem JSValue.beq_self : ∀ (a : JSValue), JSValue.beq a a = true
  | .undefined => by simp [JSValue.beq]
  | .null => by simp [JSValue.beq]
  | .bool _ => by simp [JSValue.beq]
  | .number _ => by simp [JSValue.beq]
  | .string _ => by simp [JSValue.beq]
  | .array xs => by simp [JSValue.beq, JSValue.beqItems_self xs]
  | .object ps => by simp [JSValue.beq, JSValue.beqProps_self ps]
theorem JSValue.beqItems_self : ∀ (xs : List (Option JSValue)), JSValue.beqItems xs xs = true
  | [] => by simp [JSValue.beqItems]
  | none :: xs => by simp [JSValue.beqItems, JSValue.beqItems_self xs]
  | some x :: xs => by simp [JSValue.beqItems, JSValue.beq_self x, JSValue.beqItems_self xs]
theorem JSValue.beqProps_self :
    ∀ (ps : List (JSString × JSValue)), JSValue.beqProps ps ps = true
  | [] => by simp [JSValue.beqProps]
  | (k, x) :: ps => by simp [JSValue.beqProps, JSValue.beq_self x, JSValue.beqProps_self ps]
end

instance : DecidableEq JSValue := fun a b =>
  decidable_of_iff (JSValue.beq a b = true)
    ⟨JSValue.eq_of_beq a b, fun h => h ▸ JSValue.beq_self a⟩

deriving instance DecidableEq for JSError

deriving instance DecidableEq for RetVal

deriving instance DecidableEq for Except

/-! ## Runs that never reach `JSON.parse` -/

theorem plain_drop (s : JSString) (n : Nat) (hs : plain s = true) : plain (s.drop n) = true := by
  unfold plain at *
  rw [List.all_eq_true] at *
  intro c hc
  exact hs c (List.mem_of_mem_drop hc)

theorem charAt0_of_plain (s : JSString) (hs : plain s = true) :
    charAt0 s ≠ utf16 "\x7b" ∧ charAt0 s ≠ utf16 "[" := by
  cases s with
  | nil => exact ⟨by decide, by decide⟩
  | cons c t =>
    have hc : c ≠ 123 ∧ c ≠ 91 := by
      simpa [plain] using (List.all_eq_true.mp hs c (List.mem_cons_self c t))
    have e1 : utf16 "\x7b" = [123] := by decide
    have e2 : utf16 "[" = [91] := by decide
    rw [e1, e2]
    simp [charAt0, hc.1, hc.2]

theorem ProcessArgsParser_plain (h h' : Host) (s : JSString) (hs : plain s = true) :
    ProcessArgsParser h (.string s) = ProcessArgsParser h' (.string s) := by
  have hc := charAt0_of_plain s hs
  simp only [ProcessArgsParser, hc.1, hc.2, or_self, if_false]

theorem selectParser_plain (h h' : Host) (o : ProcessArgsOptions) (n : ArgId) (s : JSString)
    (hs : plain s = true) : selectParser h o n s = selectParser h' o n s := by
  have hp := ProcessArgsParser_plain h h' s hs
  unfold selectParser
  cases hg : o.getParser with
  | none => simpa using hp
  | some g =>
    simp only []
    cases hr : g n with
    | error e => simpa using hp
    | ok r =>
      cases r with
      | none => simpa using hp
      | some f => rfl

theorem processValue_plain (h h' : Host) (o : ProcessArgsOptions) (n : ArgId) (s : JSString)
    (hs : plain s = true) : processValue h o n s = processValue h' o n s := by
  unfold processValue
  rw [selectParser_plain h h' o n s hs]

theorem plain_getValue (o : ProcessArgsOptions) (arg : JSString) (hs : plain arg = true) :
    plain ((getValue o arg).getD []) = true := by
  unfold getValue
  simp only []
  split
  · exact plain_drop _ _ hs
  · rfl

theorem scan_host (h h' : Host) (o : ProcessArgsOptions) :
    ∀ (n : Nat) (toks : List JSString), toks.length ≤ n → (∀ t ∈ toks, plain t = true) →
      ∀ (i : Nat) (retVal : RetVal), scan h o i toks retVal = scan h' o i toks retVal := by
  intro n
  induction n with
  | zero =>
    intro toks hn _ i retVal
    have : toks = [] := List.length_eq_zero.mp (Nat.le_zero.mp hn)
    subst this
    rfl
  | succ n ih =>
    intro toks hn hp i retVal
    cases toks with
    | nil => rfl
    | cons arg rest =>
      have hrest : ∀ t ∈ rest, plain t = true := fun t ht => hp t (List.mem_cons_of_mem _ ht)
      have harg : plain arg = true := hp arg (List.mem_cons_self _ _)
      have hlen : rest.length ≤ n := by simpa using hn
      unfold scan
      cases hm : matchedPrefix o arg with
      | none =>
        simp only []
        rw [processValue_plain h h' o _ arg harg]
        cases storePositional o retVal i (processValue h' o (.index i) arg) with
        | error e => rfl
        | ok rv => exact ih rest hlen hrest _ _
      | some p =>
        simp only []
        have harg' : plain (sliceFrom arg p.length) = true := plain_drop _ _ harg
        have hval := plain_getValue o _ harg'
        rw [processValue_plain h h' o _ _ hval]
        split
        · exact ih rest hlen hrest _ _
        · cases rest with
          | nil => rfl
          | cons nextArg rest' =>
            simp only []
            have hnext : plain nextArg = true := hrest nextArg (List.mem_cons_self _ _)
            rw [processValue_plain h h' o _ _ hnext]
            split
            · exact ih _ hlen hrest _ _
            · exact ih rest' (by simp at hlen; omega)
                (fun t ht => hrest t (List.mem_cons_of_mem _ ht)) _ _

/-- A run on tokens without `{` and `[` never reaches `JSON.parse`: its outcome is the same
on every host. -/
theorem getProcessArgs_tokensOnly_host (h h' : Host) (tokens : List String)
    (hp : (tokens.map utf16).all plain = true) :
    getProcessArgs h (tokensOnly tokens) = getProcessArgs h' (tokensOnly tokens) := by
  have harg : ∀ (xs : List String),
      filterStrings (xs.map (fun s => JSValue.string (utf16 s))) = xs.map utf16 := by
    intro xs
    induction xs with
    | nil => rfl
    | cons x xs ih => simp [filterStrings, ih]
  have hall : ∀ t ∈ tokens.map utf16, plain t = true := List.all_eq_true.mp hp
  simp only [getProcessArgs, ProcessArgsOptions.new, tokensOnly, harg]
  exact scan_host h h' _ _ _ (Nat.le_refl _) hall _ _

/-- The same for tokens that come from the command line, the options being absent. -/
theorem getProcessArgs_commandLine_host (h h' : Host) (tokens : List String)
    (hp : (tokens.map utf16).all plain = true) :
    getProcessArgs (withCommandLine h tokens) {}
      = getProcessArgs (withCommandLine h' tokens) {} := by
  have hall : ∀ t ∈ tokens.map utf16, plain t = true := List.all_eq_true.mp hp
  simp only [getProcessArgs, ProcessArgsOptions.new, withCommandLine]
  exact scan_host _ _ _ _ _ (Nat.le_refl _) hall _ _

/-- A run whose tokens are given as `options.arguments` and hold no `{` and no `[` has the
same outcome on every host, whatever the other options are. -/
theorem getProcessArgs_host (h h' : Host) (options : RawOptions) (xs : List JSValue)
    (hx : options.arguments = some xs) (hp : (filterStrings xs).all plain = true) :
    getProcessArgs h options = getProcessArgs h' options := by
  have hall : ∀ t ∈ filterStrings xs, plain t = true := List.all_eq_true.mp hp
  simp only [getProcessArgs, ProcessArgsOptions.new, hx]
  exact scan_host h h' _ _ _ (Nat.le_refl _) hall _ _

/-! ## The named-argument branch -/

theorem isBareFlag_of_named (o : ProcessArgsOptions) (next : JSString)
    (hq : ∃ q ∈ o.prefixes, startsWith next q = true) : isBareFlag o (some next) = true := by
  obtain ⟨q, hq, hs⟩ := hq
  have : o.prefixes.any (fun p => startsWith next p) = true :=
    List.any_eq_true.mpr ⟨q, hq, hs⟩
  simp [isBareFlag, this]

theorem isBareFlag_of_positional (o : ProcessArgsOptions) (next : JSString) (hne : next ≠ [])
    (hq : ∀ q ∈ o.prefixes, startsWith next q = false) : isBareFlag o (some next) = false := by
  have hany : o.prefixes.any (fun p => startsWith next p) = false := by
    rw [List.any_eq_false]
    intro q hq'
    simp [hq q hq']
  cases next with
  | nil => exact absurd rfl hne
  | cons c t => simp [isBareFlag, truthy, hany]

theorem getOwn_setOwn (ps : List (JSString × JSValue)) (k k' : JSString) (v : JSValue) :
    getOwn (setOwn ps k v) k' = if k = k' then some v else getOwn ps k' := by
  induction ps with
  | nil => simp [setOwn, getOwn]
  | cons kv rest ih =>
    obtain ⟨a, b⟩ := kv
    simp only [setOwn]
    split
    · rename_i hak
      subst hak
      simp only [getOwn]
      split <;> rfl
    · rename_i hak
      simp only [getOwn, ih]
      split
      · rename_i hak'
        subst hak'
        have : ¬ k = a := fun e => hak e.symm
        simp [this]
      · rfl

theorem getOwn_assign_of_ne (retVal : RetVal) (key k : JSString) (v : JSValue) (hk : key ≠ k) :
    getOwn (assign retVal key v).props k = getOwn retVal.props k := by
  unfold assign
  split
  · split <;> rfl
  · simp [getOwn_setOwn, hk]

theorem getOwn_assign_self (retVal : RetVal) (key : JSString) (v : JSValue)
    (hk : key ≠ utf16 "__proto__") : getOwn (assign retVal key v).props key = some v := by
  unfold assign
  simp [hk, getOwn_setOwn]

theorem readPositional_assign (retVal : RetVal) (key : JSString) (v : JSValue)
    (hk : key ≠ utf16 "positional") :
    readPositional (assign retVal key v) = readPositional retVal := by
  unfold readPositional
  rw [getOwn_assign_of_ne retVal key _ v hk]

/-- The look-ahead branch of the loop: a named token without an inline value, followed by
a non-empty token that starts with no configured prefix, takes that token as its value, and
the scan goes on after it.  The key is the token without its prefix. -/
theorem scan_lookahead (h : Host) (o : ProcessArgsOptions) (i : Nat)
    (tok next p : JSString) (rest : List JSString) (retVal : RetVal)
    (hp : matchedPrefix o tok = some p)
    (hv : truthy (getValue o (sliceFrom tok p.length)) = false)
    (hne : next ≠ [])
    (hnext : ∀ q ∈ o.prefixes, startsWith next q = false) :
    scan h o i (tok :: next :: rest) retVal
      = scan h o (i + 2) rest
          (assign retVal (sliceFrom tok p.length)
            (processValue h o (.name (sliceFrom tok p.length)) next)) := by
  rw [scan]
  simp only [hp, hv, isBareFlag_of_positional o next hne hnext]
  simp

/-- The bare-flag branch of the loop: a named token without an inline value that is the last
token, or is followed by a token that starts with a configured prefix, is assigned `true`,
and the scan goes on with the very next token.  The key is the token without its prefix. -/
theorem scan_bare_flag (h : Host) (o : ProcessArgsOptions) (i : Nat) (tok p : JSString)
    (rest : List JSString) (retVal : RetVal)
    (hp : matchedPrefix o tok = some p)
    (hv : truthy (getValue o (sliceFrom tok p.length)) = false)
    (hnext : ∀ next, rest.head? = some next → ∃ q ∈ o.prefixes, startsWith next q = true) :
    scan h o i (tok :: rest) retVal
      = scan h o (i + 1) rest (assign retVal (sliceFrom tok p.length) (.bool true)) := by
  rw [scan]
  cases rest with
  | nil => simp [hp, hv, scan]
  | cons next rest' =>
    simp only [hp, hv, isBareFlag_of_named o next (hnext next rfl)]
    simp

/-- The inline-value branch of the loop: a named token with a non-empty inline value is
assigned the coercion of that value, under the key of line 162, and the scan goes on with
the next token. -/
theorem scan_inline_value (h : Host) (o : ProcessArgsOptions) (i : Nat) (tok p value : JSString)
    (rest : List JSString) (retVal : RetVal)
    (hp : matchedPrefix o tok = some p)
    (hv : getValue o (sliceFrom tok p.length) = some value)
    (hne : value ≠ []) :
    scan h o i (tok :: rest) retVal
      = scan h o (i + 1) rest
          (assign retVal
            (slice (sliceFrom tok p.length) 0
              (((sliceFrom tok p.length).length : Int) - (value.length : Int) - 1))
            (processValue h o
              (.name (slice (sliceFrom tok p.length) 0
                (((sliceFrom tok p.length).length : Int) - (value.length : Int) - 1)))
              value)) := by
  have ht : truthy (some value) = true := by
    cases value with
    | nil => exact absurd rfl hne
    | cons c t => rfl
  rw [scan]
  simp only [hp, hv, ht]
  simp

/-- The positional branch of the loop: a token that starts with no configured prefix is
coerced under its token index and stored in `positional`, and the scan goes on with the next
token unless the store throws. -/
theorem scan_positional (h : Host) (o : ProcessArgsOptions) (i : Nat) (tok : JSString)
    (rest : List JSString) (retVal : RetVal)
    (hp : matchedPrefix o tok = none) :
    scan h o i (tok :: rest) retVal
      = (match storePositional o retVal i (processValue h o (.index i) tok) with
        | .ok retVal' => scan h o (i + 1) rest retVal'
        | .error e => .error e) := by
  rw [scan]
  simp only [hp]

/-! ## The delimiter search -/

/-- A result of `indexOf` that is not negative is the start of an occurrence. -/
theorem indexOfFrom_occurrence (sub : JSString) :
    ∀ (s : JSString) (k : Nat), 0 ≤ indexOfFrom sub s k →
      ∃ a v, s = a ++ sub ++ v ∧ indexOfFrom sub s k = ((k + a.length : Nat) : Int)
  | [], k, hk => by
    unfold indexOfFrom at hk ⊢
    by_cases hs : sub = []
    · exact ⟨[], [], by simp [hs], by simp [hs]⟩
    · simp [hs] at hk
  | c :: cs, k, hk => by
    unfold indexOfFrom at hk ⊢
    by_cases hpre : sub.isPrefixOf (c :: cs) = true
    · obtain ⟨t, ht⟩ := List.isPrefixOf_iff_prefix.mp hpre
      exact ⟨[], t, by simp [ht], by simp [hpre]⟩
    · simp only [hpre] at hk ⊢
      obtain ⟨a, v, hs, hi⟩ := indexOfFrom_occurrence sub cs (k + 1) hk
      refine ⟨c :: a, v, by simp [hs], ?_⟩
      simp only [Bool.false_eq_true, if_false]
      rw [hi]
      simp only [List.length_cons]
      congr 1
      omega

/-- The result of `indexOf` is the start of the first occurrence: no occurrence begins
before it, and where there is an occurrence the result is not negative. -/
theorem indexOfFrom_first (sub : JSString) :
    ∀ (s : JSString) (k : Nat) (a v : JSString), s = a ++ sub ++ v →
      0 ≤ indexOfFrom sub s k ∧ indexOfFrom sub s k ≤ ((k + a.length : Nat) : Int)
  | [], k, a, v, hs => by
    have ha : a = [] := by
      cases a with
      | nil => rfl
      | cons x xs => simp at hs
    have hsub : sub = [] := by
      subst ha
      cases sub with
      | nil => rfl
      | cons x xs => simp at hs
    subst ha
    subst hsub
    simp [indexOfFrom]
  | c :: cs, k, a, v, hs => by
    unfold indexOfFrom
    by_cases hpre : sub.isPrefixOf (c :: cs) = true
    · simp only [hpre, if_true]
      constructor <;> omega
    · simp only [hpre, Bool.false_eq_true, if_false]
      cases a with
      | nil =>
        exfalso
        apply hpre
        exact List.isPrefixOf_iff_prefix.mpr ⟨v, by simpa using hs.symm⟩
      | cons x xs =>
        have hcs : cs = xs ++ sub ++ v := by
          simp at hs
          simp [hs.2]
        obtain ⟨h0, h1⟩ := indexOfFrom_first sub cs (k + 1) xs v hcs
        refine ⟨h0, ?_⟩
        simp only [List.length_cons]
        have : ((k + 1 + xs.length : Nat) : Int) = ((k + (xs.length + 1) : Nat) : Int) := by
          congr 1
          omega
        rw [← this]
        exact h1

/-- What `getValue` returns when the loop ends on a delimiter found at a given place: the
text after that occurrence. -/
theorem sliceFrom_after (a d v : JSString) :
    sliceFrom (a ++ d ++ v) (((a.length : Nat) : Int) + ((d.length : Nat) : Int)) = v := by
  have hnn : ¬ (((a.length : Nat) : Int) + ((d.length : Nat) : Int) < 0) := by omega
  have htn : (((a.length : Nat) : Int) + ((d.length : Nat) : Int)).toNat
      = a.length + d.length := by omega
  simp only [sliceFrom, relativeIndex, hnn, if_false, htn]
  have hmin : min (a.length + d.length) (a ++ d ++ v).length = (a ++ d).length := by
    simp only [List.length_append]
    omega
  rw [hmin]
  exact List.drop_left _ _

/-- A delimiter already identified is kept while none of the delimiters that follow occurs
before it. -/
theorem identifyDelimiter_keep (arg : JSString) :
    ∀ (ds : List JSString) (cur : IdentifiedDelimiter), 0 ≤ cur.index →
      (∀ d' ∈ ds, d' ≠ [] → 0 ≤ indexOf arg d' → cur.index ≤ indexOf arg d') →
      identifyDelimiter arg ds cur = cur
  | [], cur, _, _ => rfl
  | d' :: rest, cur, h0, hall => by
    have hrest := identifyDelimiter_keep arg rest cur h0
      (fun x hx => hall x (List.mem_cons_of_mem _ hx))
    unfold identifyDelimiter
    by_cases hd : d' = []
    · simp [hd, hrest]
    · have hle := hall d' (List.mem_cons_self _ _) hd
      have hcond : ¬ (indexOf arg d' ≥ 0
          ∧ (cur.index < 0 ∨ indexOf arg d' < cur.index)) := by
        rintro ⟨h1, h2⟩
        have := hle h1
        omega
      simp [hd, hcond, hrest]

/-- The loop of `getValue` ends on the delimiter that the selection rule names: the one that
occurs first in the remainder, and among those that occur at the same index the one declared
first. -/
theorem identifyDelimiter_select (arg d : JSString) (after : List JSString) (hd : d ≠ [])
    (hk : 0 ≤ indexOf arg d)
    (hafter : ∀ d' ∈ after, d' ≠ [] → 0 ≤ indexOf arg d' → indexOf arg d ≤ indexOf arg d') :
    ∀ (before : List JSString) (cur : IdentifiedDelimiter),
      (cur.index < 0 ∨ indexOf arg d < cur.index) →
      (∀ d' ∈ before, d' ≠ [] → 0 ≤ indexOf arg d' → indexOf arg d < indexOf arg d') →
      identifyDelimiter arg (before ++ d :: after) cur
        = { delimiter := d, index := indexOf arg d }
  | [], cur, hcur, _ => by
    have hcond : indexOf arg d ≥ 0 ∧ (cur.index < 0 ∨ indexOf arg d < cur.index) :=
      ⟨hk, hcur⟩
    simp only [List.nil_append]
    unfold identifyDelimiter
    simp only [ne_eq, hd, not_false_eq_true, if_true, hcond, and_self]
    exact identifyDelimiter_keep arg after _ hk hafter
  | d' :: rest, cur, hcur, hbefore => by
    have hrest : ∀ x ∈ rest, x ≠ [] → 0 ≤ indexOf arg x → indexOf arg d < indexOf arg x :=
      fun x hx => hbefore x (List.mem_cons_of_mem _ hx)
    simp only [List.cons_append]
    unfold identifyDelimiter
    by_cases hd' : d' = []
    · simp only [ne_eq, hd', not_true_eq_false, if_false]
      exact identifyDelimiter_select arg d after hd hk hafter rest cur hcur hrest
    · by_cases hcond : indexOf arg d' ≥ 0
          ∧ (cur.index < 0 ∨ indexOf arg d' < cur.index)
      · simp only [ne_eq, hd', not_false_eq_true, if_true, hcond, and_self]
        exact identifyDelimiter_select arg d after hd hk hafter rest _
          (Or.inr (hbefore d' (List.mem_cons_self _ _) hd' hcond.1)) hrest
      · simp only [ne_eq, hd', not_false_eq_true, if_true, hcond, if_false]
        exact identifyDelimiter_select arg d after hd hk hafter rest cur hcur hrest

/-- The loop of `getValue` ends without a delimiter only when it began without one and no
non-empty configured delimiter occurs in the remainder. -/
theorem identifyDelimiter_none (arg : JSString) :
    ∀ (ds : List JSString) (cur : IdentifiedDelimiter),
      (identifyDelimiter arg ds cur).index < 0 →
      cur.index < 0 ∧ ∀ d ∈ ds, d ≠ [] → indexOf arg d < 0
  | [], cur, h => ⟨h, fun d hd => by simp at hd⟩
  | d' :: rest, cur, h => by
    unfold identifyDelimiter at h
    by_cases hd' : d' = []
    · simp only [ne_eq, hd', not_true_eq_false, if_false] at h
      obtain ⟨h1, h2⟩ := identifyDelimiter_none arg rest cur h
      refine ⟨h1, fun d hd hne => ?_⟩
      rcases List.mem_cons.mp hd with rfl | hmem
      · exact absurd hd' hne
      · exact h2 d hmem hne
    · by_cases hcond : indexOf arg d' ≥ 0
          ∧ (cur.index < 0 ∨ indexOf arg d' < cur.index)
      · simp only [ne_eq, hd', not_false_eq_true, if_true, hcond, and_self] at h
        obtain ⟨h1, _⟩ := identifyDelimiter_none arg rest _ h
        simp only at h1
        omega
      · simp only [ne_eq, hd', not_false_eq_true, if_true, hcond, if_false] at h
        obtain ⟨h1, h2⟩ := identifyDelimiter_none arg rest cur h
        refine ⟨h1, fun d hd hne => ?_⟩
        rcases List.mem_cons.mp hd with rfl | hmem
        · by_contra hnot
          exact hcond ⟨by omega, Or.inl h1⟩
        · exact h2 d hmem hne

/-- The loop of `getValue` leaves its state as it is when no non-empty configured delimiter
occurs in the remainder. -/
theorem identifyDelimiter_unchanged (arg : JSString) :
    ∀ (ds : List JSString) (cur : IdentifiedDelimiter),
      (∀ d ∈ ds, d ≠ [] → indexOf arg d < 0) → identifyDelimiter arg ds cur = cur
  | [], _, _ => rfl
  | d' :: rest, cur, hall => by
    have hrest := identifyDelimiter_unchanged arg rest cur
      (fun x hx => hall x (List.mem_cons_of_mem _ hx))
    unfold identifyDelimiter
    by_cases hd' : d' = []
    · simp [hd', hrest]
    · have hneg := hall d' (List.mem_cons_self _ _) hd'
      have hcond : ¬ (indexOf arg d' ≥ 0
          ∧ (cur.index < 0 ∨ indexOf arg d' < cur.index)) := by
        rintro ⟨h1, _⟩
        omega
      simp [hd', hcond, hrest]

/-! ## The two settings of `keepPositionalIndices` -/

theorem slotAt_of_length_le (items : List (Option JSValue)) (j : Nat)
    (hj : items.length ≤ j) : slotAt items j = none := by
  simp [slotAt, List.getElem?_eq_none hj]

theorem length_setSlot (v : JSValue) :
    ∀ (items : List (Option JSValue)) (i : Nat), items.length ≤ i →
      (setSlot items i v).length = i + 1
  | [], 0, _ => rfl
  | [], i + 1, _ => by simp [setSlot, length_setSlot v [] i (Nat.zero_le _)]
  | _ :: _, 0, hl => by simp at hl
  | x :: rest, i + 1, hl => by
    simp [setSlot, length_setSlot v rest i (by simpa using hl)]

theorem slotAt_setSlot_self (v : JSValue) :
    ∀ (items : List (Option JSValue)) (i : Nat), slotAt (setSlot items i v) i = some v
  | [], 0 => by simp [slotAt, setSlot]
  | [], i + 1 => by
    have ih := slotAt_setSlot_self v [] i
    simpa [slotAt, setSlot] using ih
  | _ :: _, 0 => by simp [slotAt, setSlot]
  | x :: rest, i + 1 => by
    have ih := slotAt_setSlot_self v rest i
    simpa [slotAt, setSlot] using ih

theorem slotAt_setSlot_of_lt (v : JSValue) :
    ∀ (items : List (Option JSValue)) (i j : Nat), j < i →
      slotAt (setSlot items i v) j = slotAt items j
  | [], 0, j, hj => by omega
  | [], i + 1, 0, _ => by simp [slotAt, setSlot]
  | [], i + 1, j + 1, hj => by
    have ih := slotAt_setSlot_of_lt v [] i j (by omega)
    simpa [slotAt, setSlot] using ih
  | _ :: _, 0, j, hj => by omega
  | x :: rest, i + 1, 0, _ => by simp [slotAt, setSlot]
  | x :: rest, i + 1, j + 1, hj => by
    have ih := slotAt_setSlot_of_lt v rest i j (by omega)
    simpa [slotAt, setSlot] using ih

/-- Storing beyond the end of an array appends to the array without its holes. -/
theorem filter_setSlot (v : JSValue) :
    ∀ (items : List (Option JSValue)) (i : Nat), items.length ≤ i →
      (setSlot items i v).filter Option.isSome = items.filter Option.isSome ++ [some v]
  | [], 0, _ => rfl
  | [], i + 1, _ => by
    have ih := filter_setSlot v [] i (Nat.zero_le _)
    simpa [setSlot] using ih
  | _ :: _, 0, hl => by simp at hl
  | x :: rest, i + 1, hl => by
    have ih := filter_setSlot v rest i (by simpa using hl)
    cases x <;> simp [setSlot, ih]

theorem setOwn_setOwn (ps : List (JSString × JSValue)) (k : JSString) (v w : JSValue) :
    setOwn (setOwn ps k v) k w = setOwn ps k w := by
  induction ps with
  | nil => simp [setOwn]
  | cons kv rest ih =>
    obtain ⟨a, b⟩ := kv
    by_cases hak : a = k
    · simp [setOwn, hak]
    · simp [setOwn, hak, ih]

/-- Two assignments to different keys can be made in either order when the first key is
already a property. -/
theorem setOwn_comm (ps : List (JSString × JSValue)) (k k' : JSString) (v w : JSValue)
    (hk : k ≠ k') (hin : (getOwn ps k).isSome = true) :
    setOwn (setOwn ps k v) k' w = setOwn (setOwn ps k' w) k v := by
  induction ps with
  | nil => simp [getOwn] at hin
  | cons kv rest ih =>
    obtain ⟨a, b⟩ := kv
    by_cases hak : a = k
    · subst hak
      simp [setOwn, hk]
    · by_cases hak' : a = k'
      · subst hak'
        simp [setOwn, hak]
      · have hin' : (getOwn rest k).isSome = true := by simpa [getOwn, hak] using hin
        simp [setOwn, hak, hak', ih hin']

theorem getOwn_positional_of_read (retVal : RetVal) (items : List (Option JSValue))
    (hpos : readPositional retVal = .array items) :
    getOwn retVal.props (utf16 "positional") = some (.array items) := by
  unfold readPositional at hpos
  cases hg : getOwn retVal.props (utf16 "positional") with
  | none => simp [hg] at hpos
  | some x =>
    simp [hg] at hpos
    rw [hpos]

/-- A named assignment and the removal of the holes of `positional` can be made in either
order. -/
theorem assign_withoutHoles (retVal : RetVal) (items : List (Option JSValue))
    (key : JSString) (v : JSValue) (hkey : key ≠ utf16 "positional")
    (hpos : readPositional retVal = .array items) :
    assign (withoutHoles retVal items) key v = withoutHoles (assign retVal key v) items := by
  have hk' : ¬ utf16 "positional" = key := fun e => hkey e.symm
  have hin : (getOwn retVal.props (utf16 "positional")).isSome = true := by
    rw [getOwn_positional_of_read retVal items hpos]
    rfl
  unfold assign withoutHoles
  simp only [getOwn_setOwn, hk', if_false]
  split
  · split <;> rfl
  · simp only [setOwn_comm retVal.props (utf16 "positional") key _ v
      (fun e => hkey e.symm) hin]

/-- One step of the loop on a named argument that takes `n` tokens keeps the agreement of
the two runs. -/
theorem keepModes_named_step (h : Host) (o : ProcessArgsOptions) (i n : Nat)
    (toks toks' : List JSString) (retVal : RetVal) (items : List (Option JSValue))
    (key : JSString) (v : JSValue)
    (hpos : readPositional retVal = .array items) (hlen : items.length ≤ i)
    (hkey : key ≠ utf16 "positional")
    (hT : ∀ rv, scan h { o with keepPositionalIndices := true } i toks rv
      = scan h { o with keepPositionalIndices := true } (i + n) toks' (assign rv key v))
    (hF : ∀ rv, scan h { o with keepPositionalIndices := false } i toks rv
      = scan h { o with keepPositionalIndices := false } (i + n) toks' (assign rv key v))
    (hexp : ∀ j, expectedSlot h o i toks j
      = if j < n then none else expectedSlot h o (i + n) toks' (j - n))
    (ih : KeepModesAgree h o (i + n) toks' (assign retVal key v) items) :
    KeepModesAgree h o i toks retVal items := by
  obtain ⟨r, items', hsT, hr, hsF, hlow, hhigh⟩ := ih
  refine ⟨r, items', by rw [hT, hsT], hr, ?_, fun j hj => hlow j (by omega), ?_⟩
  · rw [hF, assign_withoutHoles retVal items key v hkey hpos]
    exact hsF
  · intro j
    rw [hexp j]
    by_cases hj : j < n
    · rw [hlow (i + j) (by omega), slotAt_of_length_le items (i + j) (by omega)]
      simp [hj]
    · have hsplit : i + j = i + n + (j - n) := by omega
      rw [hsplit, hhigh (j - n)]
      simp [hj]

/-- One step of the loop on a positional argument keeps the agreement of the two runs. -/
theorem keepModes_positional_step (h : Host) (o : ProcessArgsOptions) (i : Nat)
    (tok : JSString) (rest : List JSString) (retVal : RetVal)
    (items : List (Option JSValue))
    (hpos : readPositional retVal = .array items) (hlen : items.length ≤ i)
    (hp : matchedPrefix o tok = none)
    (ih : ∀ rv its, readPositional rv = .array its → its.length ≤ i + 1 →
      KeepModesAgree h o (i + 1) rest rv its) :
    KeepModesAgree h o i (tok :: rest) retVal items := by
  have hown := getOwn_positional_of_read retVal items hpos
  have hposF : readPositional (withoutHoles retVal items)
      = .array (items.filter Option.isSome) := by
    simp [readPositional, withoutHoles, getOwn_setOwn]
  have hrv' : readPositional
      (⟨retVal.proto, setOwn retVal.props (utf16 "positional")
          (.array (setSlot items i (processValue h o (.index i) tok)))⟩ : RetVal)
      = .array (setSlot items i (processValue h o (.index i) tok)) := by
    simp [readPositional, getOwn_setOwn]
  obtain ⟨r, items', hsT, hr, hsF, hlow, hhigh⟩ :=
    ih _ _ hrv' (by rw [length_setSlot _ items i hlen])
  have hroles : roles o (tok :: rest) = (tok, .positional) :: roles o rest := by
    rw [roles]
    simp only [hp]
  refine ⟨r, items', ?_, hr, ?_, ?_, ?_⟩
  · rw [scan_positional h { o with keepPositionalIndices := true } i tok rest retVal hp]
    have hst : storePositional { o with keepPositionalIndices := true } retVal i
        (processValue h { o with keepPositionalIndices := true } (.index i) tok)
        = .ok ⟨retVal.proto, setOwn retVal.props (utf16 "positional")
            (.array (setSlot items i (processValue h o (.index i) tok)))⟩ := by
      simp only [storePositional, hpos, setIndex, if_true]
      rfl
    rw [hst]
    exact hsT
  · rw [scan_positional h { o with keepPositionalIndices := false } i tok rest _ hp]
    have hst : storePositional { o with keepPositionalIndices := false }
        (withoutHoles retVal items) i
        (processValue h { o with keepPositionalIndices := false } (.index i) tok)
        = .ok (withoutHoles
            ⟨retVal.proto, setOwn retVal.props (utf16 "positional")
                (.array (setSlot items i (processValue h o (.index i) tok)))⟩
            (setSlot items i (processValue h o (.index i) tok))) := by
      simp only [storePositional, hposF, push, Bool.false_eq_true, if_false]
      simp only [withoutHoles, setOwn_setOwn, filter_setSlot _ items i hlen]
      rfl
    rw [hst]
    exact hsF
  · intro j hj
    rw [hlow j (by omega), slotAt_setSlot_of_lt _ items i j hj]
  · intro j
    cases j with
    | zero =>
      rw [Nat.add_zero, hlow i (by omega), slotAt_setSlot_self]
      simp [expectedSlot, hroles]
    | succ j =>
      have hsplit : i + (j + 1) = i + 1 + j := by omega
      rw [hsplit, hhigh j]
      simp only [expectedSlot, hroles, List.getElem?_cons_succ]
      rw [hsplit]

theorem expectedSlot_named_one (h : Host) (o : ProcessArgsOptions) (i : Nat)
    (toks toks' : List JSString) (t : JSString)
    (hroles : roles o toks = (t, .named) :: roles o toks') (j : Nat) :
    expectedSlot h o i toks j
      = if j < 1 then none else expectedSlot h o (i + 1) toks' (j - 1) := by
  cases j with
  | zero => simp [expectedSlot, hroles]
  | succ j =>
    have hidx : i + (j + 1) = i + 1 + j := by omega
    simp [expectedSlot, hroles, hidx]

theorem expectedSlot_named_two (h : Host) (o : ProcessArgsOptions) (i : Nat)
    (toks toks' : List JSString) (t t' : JSString)
    (hroles : roles o toks = (t, .named) :: (t', .lookAhead) :: roles o toks') (j : Nat) :
    expectedSlot h o i toks j
      = if j < 2 then none else expectedSlot h o (i + 2) toks' (j - 2) := by
  cases j with
  | zero => simp [expectedSlot, hroles]
  | succ j =>
    cases j with
    | zero => simp [expectedSlot, hroles]
    | succ j =>
      have hidx : i + (j + 1 + 1) = i + 2 + j := by omega
      have hlt : ¬ (j + 1 + 1 < 2) := by omega
      simp [expectedSlot, hroles, hidx, hlt]

/-- The two runs agree from every index on, on every state whose `positional` is an array
no longer than the index, as long as no named argument's key is `positional`. -/
theorem keepModes_agree (h : Host) (o : ProcessArgsOptions) :
    ∀ (n : Nat) (toks : List JSString), toks.length ≤ n →
      ∀ (i : Nat) (retVal : RetVal) (items : List (Option JSValue)),
        readPositional retVal = .array items → items.length ≤ i →
        (∀ kv ∈ namedWrites h o toks, kv.1 ≠ utf16 "positional") →
        KeepModesAgree h o i toks retVal items := by
  intro n
  induction n with
  | zero =>
    intro toks hn i retVal items hpos hlen _
    have : toks = [] := List.length_eq_zero.mp (Nat.le_zero.mp hn)
    subst this
    exact ⟨retVal, items, rfl, hpos, rfl, fun _ _ => rfl, fun j => by
      rw [slotAt_of_length_le items (i + j) (by omega)]
      simp [expectedSlot, roles]⟩
  | succ n ih =>
    intro toks hn i retVal items hpos hlen hkeys
    cases toks with
    | nil =>
      exact ⟨retVal, items, rfl, hpos, rfl, fun _ _ => rfl, fun j => by
        rw [slotAt_of_length_le items (i + j) (by omega)]
        simp [expectedSlot, roles]⟩
    | cons tok rest =>
      have hrl : rest.length ≤ n := by simpa using hn
      cases hm : matchedPrefix o tok with
      | none =>
        have hw : namedWrites h o (tok :: rest) = namedWrites h o rest := by
          rw [namedWrites]
          simp only [hm]
        rw [hw] at hkeys
        exact keepModes_positional_step h o i tok rest retVal items hpos hlen hm
          (fun rv its hr hl => ih rest hrl (i + 1) rv its hr hl hkeys)
      | some p =>
        by_cases hv : truthy (getValue o (sliceFrom tok p.length)) = true
        · have hw : namedWrites h o (tok :: rest)
              = (slice (sliceFrom tok p.length) 0
                    (((sliceFrom tok p.length).length : Int)
                      - (((getValue o (sliceFrom tok p.length)).getD []).length : Int) - 1),
                  processValue h o
                    (.name (slice (sliceFrom tok p.length) 0
                      (((sliceFrom tok p.length).length : Int)
                        - (((getValue o (sliceFrom tok p.length)).getD []).length : Int) - 1)))
                    ((getValue o (sliceFrom tok p.length)).getD []))
                :: namedWrites h o rest := by
            rw [namedWrites]
            simp only [hm, hv, if_true]
          have hroles : roles o (tok :: rest)
              = (sliceFrom tok p.length, .named) :: roles o rest := by
            rw [roles]
            simp only [hm, hv, if_true]
          rw [hw] at hkeys
          have hkey := hkeys _ (List.mem_cons_self _ _)
          refine keepModes_named_step h o i 1 (tok :: rest) rest retVal items _
            (processValue h o
              (.name (slice (sliceFrom tok p.length) 0
                (((sliceFrom tok p.length).length : Int)
                  - (((getValue o (sliceFrom tok p.length)).getD []).length : Int) - 1)))
              ((getValue o (sliceFrom tok p.length)).getD [])) hpos hlen
            hkey ?_ ?_ (expectedSlot_named_one h o i _ _ _ hroles) ?_
          · intro rv
            rw [scan]
            have hm' : matchedPrefix { o with keepPositionalIndices := true } tok = some p := hm
            have hv' : truthy (getValue { o with keepPositionalIndices := true }
                (sliceFrom tok p.length)) = true := hv
            simp only [hm', hv', if_true]
            rfl
          · intro rv
            rw [scan]
            have hm' : matchedPrefix { o with keepPositionalIndices := false } tok = some p := hm
            have hv' : truthy (getValue { o with keepPositionalIndices := false }
                (sliceFrom tok p.length)) = true := hv
            simp only [hm', hv', if_true]
            rfl
          · exact ih rest hrl (i + 1) _ items
              (by rw [readPositional_assign _ _ _ hkey]; exact hpos) (by omega)
              (fun kv hkv => hkeys kv (List.mem_cons_of_mem _ hkv))
        · have hv0 : truthy (getValue o (sliceFrom tok p.length)) = false := by simpa using hv
          cases rest with
          | nil =>
            have hw : namedWrites h o [tok] = [(sliceFrom tok p.length, .bool true)] := by
              rw [namedWrites]
              simp only [hm, hv0, Bool.false_eq_true, if_false]
            have hroles0 : roles o [tok] = [(sliceFrom tok p.length, .named)] := by
              rw [roles]
              simp only [hm, hv0, Bool.false_eq_true, if_false]
            have hroles : roles o [tok] = (sliceFrom tok p.length, .named) :: roles o [] :=
              hroles0
            rw [hw] at hkeys
            have hkey := hkeys _ (List.mem_cons_self _ _)
            refine keepModes_named_step h o i 1 [tok] [] retVal items _ (.bool true) hpos hlen
              hkey ?_ ?_ (expectedSlot_named_one h o i _ _ _ hroles) ?_
            · exact fun rv =>
                scan_bare_flag h { o with keepPositionalIndices := true } i tok p [] rv hm hv0
                  (by simp)
            · exact fun rv =>
                scan_bare_flag h { o with keepPositionalIndices := false } i tok p [] rv hm hv0
                  (by simp)
            · exact ih [] (Nat.zero_le _) (i + 1) _ items
                (by rw [readPositional_assign _ _ _ hkey]; exact hpos) (by omega)
                (fun kv hkv => by simp [namedWrites] at hkv)
          | cons next rest' =>
            by_cases hb : isBareFlag o (some next) = true
            · have hw : namedWrites h o (tok :: next :: rest')
                  = (sliceFrom tok p.length, .bool true)
                    :: namedWrites h o (next :: rest') := by
                rw [namedWrites]
                simp only [hm, hv0, hb, Bool.false_eq_true, if_false, if_true]
              have hroles : roles o (tok :: next :: rest')
                  = (sliceFrom tok p.length, .named) :: roles o (next :: rest') := by
                rw [roles]
                simp only [hm, hv0, hb, Bool.false_eq_true, if_false, if_true]
              rw [hw] at hkeys
              have hkey := hkeys _ (List.mem_cons_self _ _)
              refine keepModes_named_step h o i 1 (tok :: next :: rest') (next :: rest') retVal
                items _ (.bool true) hpos hlen hkey ?_ ?_
                (expectedSlot_named_one h o i _ _ _ hroles) ?_
              · intro rv
                rw [scan]
                have hm' : matchedPrefix { o with keepPositionalIndices := true } tok
                    = some p := hm
                have hv' : truthy (getValue { o with keepPositionalIndices := true }
                    (sliceFrom tok p.length)) = false := hv0
                have hb' : isBareFlag { o with keepPositionalIndices := true } (some next)
                    = true := hb
                simp only [hm', hv', hb', Bool.false_eq_true, if_false, if_true]
              · intro rv
                rw [scan]
                have hm' : matchedPrefix { o with keepPositionalIndices := false } tok
                    = some p := hm
                have hv' : truthy (getValue { o with keepPositionalIndices := false }
                    (sliceFrom tok p.length)) = false := hv0
                have hb' : isBareFlag { o with keepPositionalIndices := false } (some next)
                    = true := hb
                simp only [hm', hv', hb', Bool.false_eq_true, if_false, if_true]
              · exact ih (next :: rest') hrl (i + 1) _ items
                  (by rw [readPositional_assign _ _ _ hkey]; exact hpos) (by omega)
                  (fun kv hkv => hkeys kv (List.mem_cons_of_mem _ hkv))
            · have hb0 : isBareFlag o (some next) = false := by simpa using hb
              have hw : namedWrites h o (tok :: next :: rest')
                  = (sliceFrom tok p.length,
                      processValue h o (.name (sliceFrom tok p.length)) next)
                    :: namedWrites h o rest' := by
                rw [namedWrites]
                simp only [hm, hv0, hb0, Bool.false_eq_true, if_false]
              have hroles : roles o (tok :: next :: rest')
                  = (sliceFrom tok p.length, .named) :: (next, .lookAhead)
                    :: roles o rest' := by
                rw [roles]
                simp only [hm, hv0, hb0, Bool.false_eq_true, if_false]
              rw [hw] at hkeys
              have hkey := hkeys _ (List.mem_cons_self _ _)
              refine keepModes_named_step h o i 2 (tok :: next :: rest') rest' retVal
                items _ (processValue h o (.name (sliceFrom tok p.length)) next) hpos hlen hkey
                ?_ ?_ (expectedSlot_named_two h o i _ _ _ _ hroles) ?_
              · intro rv
                rw [scan]
                have hm' : matchedPrefix { o with keepPositionalIndices := true } tok
                    = some p := hm
                have hv' : truthy (getValue { o with keepPositionalIndices := true }
                    (sliceFrom tok p.length)) = false := hv0
                have hb' : isBareFlag { o with keepPositionalIndices := true } (some next)
                    = false := hb0
                simp only [hm', hv', hb', Bool.false_eq_true, if_false]
                rfl
              · intro rv
                rw [scan]
                have hm' : matchedPrefix { o with keepPositionalIndices := false } tok
                    = some p := hm
                have hv' : truthy (getValue { o with keepPositionalIndices := false }
                    (sliceFrom tok p.length)) = false := hv0
                have hb' : isBareFlag { o with keepPositionalIndices := false } (some next)
                    = false := hb0
                simp only [hm', hv', hb', Bool.false_eq_true, if_false]
                rfl
              · exact ih rest' (by simp at hrl; omega) (i + 2) _ items
                  (by rw [readPositional_assign _ _ _ hkey]; exact hpos) (by omega)
                  (fun kv hkv => hkeys kv (List.mem_cons_of_mem _ hkv))

/-- Every token has a role, and the text kept with a role is tied to the token: a
positional token starts with no configured prefix and is kept as it is, a token taken by
look-ahead is kept as it is, and a named token starts with a configured prefix and is kept
without the first one it starts with. -/
theorem roles_tokens (o : ProcessArgsOptions) :
    ∀ (n : Nat) (toks : List JSString), toks.length ≤ n →
      (roles o toks).length = toks.length
      ∧ ∀ (j : Nat) (t : JSString) (r : Role), (roles o toks)[j]? = some (t, r) →
          ∃ tok, toks[j]? = some tok
            ∧ (r = .positional → t = tok ∧ matchedPrefix o tok = none)
            ∧ (r = .lookAhead → t = tok)
            ∧ (r = .named → ∃ p, matchedPrefix o tok = some p ∧ t = sliceFrom tok p.length) := by
  intro n
  induction n with
  | zero =>
    intro toks hn
    have : toks = [] := List.length_eq_zero.mp (Nat.le_zero.mp hn)
    subst this
    exact ⟨rfl, fun j t r hj => by simp [roles] at hj⟩
  | succ n ih =>
    intro toks hn
    cases toks with
    | nil => exact ⟨rfl, fun j t r hj => by simp [roles] at hj⟩
    | cons tok rest =>
      have hrl : rest.length ≤ n := by simpa using hn
      have hnamed : ∀ (p : JSString) (toks' : List JSString), matchedPrefix o tok = some p →
          toks'.length ≤ n →
          roles o (tok :: rest) = (sliceFrom tok p.length, .named) :: roles o toks' →
          rest = toks' →
          (roles o (tok :: rest)).length = (tok :: rest).length
          ∧ ∀ (j : Nat) (t : JSString) (r : Role), (roles o (tok :: rest))[j]? = some (t, r) →
              ∃ tk, (tok :: rest)[j]? = some tk
                ∧ (r = .positional → t = tk ∧ matchedPrefix o tk = none)
                ∧ (r = .lookAhead → t = tk)
                ∧ (r = .named → ∃ q, matchedPrefix o tk = some q
                    ∧ t = sliceFrom tk q.length) := by
        intro p toks' hm hl hroles hrest
        subst hrest
        obtain ⟨ihl, ihj⟩ := ih rest hl
        rw [hroles]
        refine ⟨by simp [ihl], fun j t r hj => ?_⟩
        cases j with
        | zero =>
          simp at hj
          obtain ⟨ht, hr⟩ := hj
          subst ht
          subst hr
          exact ⟨tok, by simp, by simp, by simp, fun _ => ⟨p, hm, rfl⟩⟩
        | succ j =>
          simp only [List.getElem?_cons_succ] at hj ⊢
          exact ihj j t r hj
      cases hm : matchedPrefix o tok with
      | none =>
        have hroles : roles o (tok :: rest) = (tok, .positional) :: roles o rest := by
          rw [roles]
          simp only [hm]
        obtain ⟨ihl, ihj⟩ := ih rest hrl
        rw [hroles]
        refine ⟨by simp [ihl], fun j t r hj => ?_⟩
        cases j with
        | zero =>
          simp at hj
          obtain ⟨ht, hr⟩ := hj
          subst ht
          subst hr
          exact ⟨tok, by simp, fun _ => ⟨rfl, hm⟩, by simp, by simp⟩
        | succ j =>
          simp only [List.getElem?_cons_succ] at hj ⊢
          exact ihj j t r hj
      | some p =>
        by_cases hv : truthy (getValue o (sliceFrom tok p.length)) = true
        · exact hnamed p rest hm hrl (by rw [roles]; simp only [hm, hv, if_true]) rfl
        · have hv0 : truthy (getValue o (sliceFrom tok p.length)) = false := by simpa using hv
          cases rest with
          | nil =>
            have hroles0 : roles o [tok] = [(sliceFrom tok p.length, .named)] := by
              rw [roles]
              simp only [hm, hv0, Bool.false_eq_true, if_false]
            exact hnamed p [] hm (Nat.zero_le _) hroles0 rfl
          | cons next rest' =>
            by_cases hb : isBareFlag o (some next) = true
            · exact hnamed p (next :: rest') hm hrl
                (by rw [roles]; simp only [hm, hv0, hb, Bool.false_eq_true, if_false, if_true])
                rfl
            · have hb0 : isBareFlag o (some next) = false := by simpa using hb
              have hroles : roles o (tok :: next :: rest')
                  = (sliceFrom tok p.length, .named) :: (next, .lookAhead)
                    :: roles o rest' := by
                rw [roles]
                simp only [hm, hv0, hb0, Bool.false_eq_true, if_false]
              obtain ⟨ihl, ihj⟩ := ih rest' (by simp at hrl; omega)
              rw [hroles]
              refine ⟨by simp [ihl], fun j t r hj => ?_⟩
              cases j with
              | zero =>
                simp at hj
                obtain ⟨ht, hr⟩ := hj
                subst ht
                subst hr
                exact ⟨tok, by simp, by simp, by simp, fun _ => ⟨p, hm, rfl⟩⟩
              | succ j =>
                cases j with
                | zero =>
                  simp at hj
                  obtain ⟨ht, hr⟩ := hj
                  subst ht
                  subst hr
                  exact ⟨next, by simp, by simp, fun _ => rfl, by simp⟩
                | succ j =>
                  simp only [List.getElem?_cons_succ] at hj ⊢
                  exact ihj j t r hj

/-! ## The hook -/

/-- With a hook that returns a function for the argument, the coerced value is what that
function does with the raw string: its result, or the raw string when it throws. -/
theorem processValue_custom (h : Host) (o : ProcessArgsOptions) (g : GetParser) (name : ArgId)
    (value : JSString) (f : CustomParser)
    (hg : o.getParser = some g) (hf : g name = .ok (some f)) :
    processValue h o name value
      = (match f value with
        | .ok v => v
        | .error _ => .string value) := by
  simp [processValue, selectParser, hg, hf]

/-- Without a function from the hook (there is no hook, it throws, or it returns something
that is no function) the coerced value is the default coercion of the raw string, or the raw
string when `JSON.parse` throws. -/
theorem processValue_default (h : Host) (o : ProcessArgsOptions) (name : ArgId)
    (value : JSString)
    (hg : o.getParser = none
      ∨ ∃ g, o.getParser = some g ∧ (g name = .ok none ∨ ∃ e, g name = .error e)) :
    processValue h o name value
      = (match ProcessArgsParser h (.string value) with
        | .ok v => v
        | .error _ => .string value) := by
  rcases hg with hg | ⟨g, hg, hr | ⟨e, hr⟩⟩
  · simp [processValue, selectParser, hg]
  · simp [processValue, selectParser, hg, hr]
  · simp [processValue, selectParser, hg, hr]

/-! ## The default coercion -/

theorem dropWhile_append_singleton (p : Nat → Bool) (c : Nat) (hc : p c = false) :
    ∀ l : List Nat, ∃ l', (l ++ [c]).dropWhile p = l' ++ [c]
  | [] => ⟨[], by simp [List.dropWhile, hc]⟩
  | a :: l => by
    by_cases ha : p a = true
    · obtain ⟨l', hl⟩ := dropWhile_append_singleton p c hc l
      exact ⟨l', by simp [List.dropWhile, ha, hl]⟩
    · exact ⟨a :: l, by simp [List.dropWhile, ha]⟩

theorem trimWhiteSpace_cons (c : Nat) (t : JSString) (hc : isStrWhiteSpaceChar c = false) :
    ∃ t', trimWhiteSpace (c :: t) = c :: t' := by
  obtain ⟨l', hl⟩ := dropWhile_append_singleton isStrWhiteSpaceChar c hc t.reverse
  refine ⟨l'.reverse, ?_⟩
  simp [trimWhiteSpace, List.dropWhile, hc, hl]

/-- Text whose first code unit is neither white space, nor a digit, nor one of `+ - . I` is
no numeric literal. -/
theorem Number_eq_nan_of_head (c : Nat) (t : JSString) (hws : isStrWhiteSpaceChar c = false)
    (hd : isDecimalDigit c = false) (h1 : c ≠ 43) (h2 : c ≠ 45) (h3 : c ≠ 46) (h4 : c ≠ 73) :
    Number (c :: t) = .nan := by
  obtain ⟨t', ht⟩ := trimWhiteSpace_cons c t hws
  have h0 : c ≠ 48 := by
    intro e
    subst e
    simp [isDecimalDigit] at hd
  have hinf : utf16 "Infinity" = [73, 110, 102, 105, 110, 105, 116, 121] := by decide
  have hnd : nonDecimalInteger (c :: t') = none := by
    unfold nonDecimalInteger
    split
    · rename_i heq
      simp at heq
      exact absurd heq.1 h0
    · rfl
  have hud : unsignedDecimal (c :: t') = none := by
    unfold unsignedDecimal
    simp only [List.takeWhile, List.dropWhile, hd]
    split
    · rename_i heq
      simp at heq
      exact absurd heq.1 h3
    · simp
  have hsd : signedDecimal false (c :: t') = .nan := by
    unfold signedDecimal
    rw [hinf, hud]
    simp [h4]
  unfold Number
  rw [ht]
  simp only []
  unfold strNumericLiteral
  rw [hnd]
  simp only []
  split
  · rename_i heq
    simp at heq
    exact absurd heq.1 h1
  · rename_i heq
    simp at heq
    exact absurd heq.1 h2
  · exact hsd

theorem lowerUnit_eq (c x : Nat) (hx : 97 ≤ x ∧ x ≤ 122) (h : lowerUnit c = x) :
    c = x ∨ c = x - 32 := by
  unfold lowerUnit at h
  split at h <;> omega

theorem isNaN_of_lower_true (s : JSString) (h : toLocaleLowerCase s = utf16 "true") :
    isNaN s = true := by
  have e : utf16 "true" = [116, 114, 117, 101] := by decide
  rw [e] at h
  cases s with
  | nil => simp [toLocaleLowerCase] at h
  | cons c t =>
    simp only [toLocaleLowerCase, List.map_cons, List.cons.injEq] at h
    have hc := lowerUnit_eq c 116 (by omega) h.1
    have : Number (c :: t) = .nan := by
      rcases hc with hc | hc <;> subst hc <;>
        exact Number_eq_nan_of_head _ t (by decide) (by decide) (by decide) (by decide)
          (by decide) (by decide)
    simp [isNaN, this]

theorem isNaN_of_lower_false (s : JSString) (h : toLocaleLowerCase s = utf16 "false") :
    isNaN s = true := by
  have e : utf16 "false" = [102, 97, 108, 115, 101] := by decide
  rw [e] at h
  cases s with
  | nil => simp [toLocaleLowerCase] at h
  | cons c t =>
    simp only [toLocaleLowerCase, List.map_cons, List.cons.injEq] at h
    have hc := lowerUnit_eq c 102 (by omega) h.1
    have : Number (c :: t) = .nan := by
      rcases hc with hc | hc <;> subst hc <;>
        exact Number_eq_nan_of_head _ t (by decide) (by decide) (by decide) (by decide)
          (by decide) (by decide)
    simp [isNaN, this]

theorem head_of_charAt0 (v : JSString) (hv : charAt0 v = utf16 "\x7b" ∨ charAt0 v = utf16 "[") :
    ∃ c t, v = c :: t ∧ (c = 123 ∨ c = 91) := by
  have e1 : utf16 "\x7b" = [123] := by decide
  have e2 : utf16 "[" = [91] := by decide
  rw [e1, e2] at hv
  cases v with
  | nil => simp [charAt0] at hv
  | cons c t => exact ⟨c, t, rfl, by simpa [charAt0] using hv⟩

/-- The default coercion of a string that begins with `{` or `[` is the call of
`JSON.parse` on it. -/
theorem ProcessArgsParser_json (h : Host) (v : JSString)
    (hv : charAt0 v = utf16 "\x7b" ∨ charAt0 v = utf16 "[") :
    ProcessArgsParser h (.string v) = h.jsonParse v := by
  obtain ⟨c, t, rfl, hc⟩ := head_of_charAt0 v hv
  have e3 : utf16 "true" = [116, 114, 117, 101] := by decide
  have e4 : utf16 "false" = [102, 97, 108, 115, 101] := by decide
  have hn : isNaN (c :: t) = true := by
    have : Number (c :: t) = .nan := by
      rcases hc with hc | hc <;> subst hc <;>
        exact Number_eq_nan_of_head _ t (by decide) (by decide) (by decide) (by decide)
          (by decide) (by decide)
    simp [isNaN, this]
  have hl : lowerUnit c ≠ 116 ∧ lowerUnit c ≠ 102 := by
    rcases hc with hc | hc <;> subst hc <;> decide
  have ht : toLocaleLowerCase (c :: t) ≠ utf16 "true" := by
    rw [e3]
    simp [toLocaleLowerCase, hl.1]
  have hf : toLocaleLowerCase (c :: t) ≠ utf16 "false" := by
    rw [e4]
    simp [toLocaleLowerCase, hl.2]
  simp only [ProcessArgsParser, hn, ht, hf, hv]
  simp

/-- A string that `isNaN` does not reject is coerced to the number `Number` reads. -/
theorem ProcessArgsParser_numeric (h : Host) (s : JSString) (hn : isNaN s = false) :
    ProcessArgsParser h (.string s) = .ok (.number (Number s)) := by
  simp [ProcessArgsParser, hn]

/-- A string that `isNaN` rejects, that is no case variant of `true` or `false` and does
not begin with `{` or `[`, is returned unchanged. -/
theorem ProcessArgsParser_unchanged (h : Host) (s : JSString) (hn : isNaN s = true)
    (ht : toLocaleLowerCase s ≠ utf16 "true") (hf : toLocaleLowerCase s ≠ utf16 "false")
    (hb : charAt0 s ≠ utf16 "\x7b") (hk : charAt0 s ≠ utf16 "[") :
    ProcessArgsParser h (.string s) = .ok (.string s) := by
  simp [ProcessArgsParser, hn, ht, hf, hb, hk]

/-! ## Last write wins -/

theorem getOwn_assign (retVal : RetVal) (key k : JSString) (v : JSValue)
    (hk : k ≠ utf16 "__proto__") :
    getOwn (assign retVal key v).props k = if key = k then some v else getOwn retVal.props k := by
  by_cases hkey : key = k
  · subst hkey
    simp [getOwn_assign_self retVal key v hk]
  · simp [getOwn_assign_of_ne retVal key k v hkey, hkey]

theorem getOwn_storePositional (o : ProcessArgsOptions) (retVal retVal' : RetVal) (i : Nat)
    (v : JSValue) (k : JSString) (hk : k ≠ utf16 "positional")
    (hs : storePositional o retVal i v = .ok retVal') :
    getOwn retVal'.props k = getOwn retVal.props k := by
  have hk' : ¬ utf16 "positional" = k := fun e => hk e.symm
  unfold storePositional at hs
  split at hs
  · cases hx : setIndex (readPositional retVal) i v with
    | error e => simp [hx, Except.map] at hs
    | ok target =>
      simp [hx, Except.map] at hs
      subst hs
      simp [getOwn_setOwn, hk']
  · cases hx : push (readPositional retVal) v with
    | error e => simp [hx, Except.map] at hs
    | ok target =>
      simp [hx, Except.map] at hs
      subst hs
      simp [getOwn_setOwn, hk']

theorem lastWrite_cons (k key : JSString) (v : JSValue) (ws : List (JSString × JSValue))
    (d : Option JSValue) :
    (match lastWrite k ((key, v) :: ws) with
      | some x => some x
      | none => d)
      = (match lastWrite k ws with
        | some x => some x
        | none => if key = k then some v else d) := by
  simp only [lastWrite]
  cases lastWrite k ws with
  | some x => rfl
  | none => by_cases hk : key = k <;> simp [hk]

theorem scan_getOwn (h : Host) (o : ProcessArgsOptions) (k : JSString)
    (hk1 : k ≠ utf16 "positional") (hk2 : k ≠ utf16 "__proto__") :
    ∀ (n : Nat) (toks : List JSString), toks.length ≤ n →
      ∀ (i : Nat) (retVal r : RetVal), scan h o i toks retVal = .ok r →
        getOwn r.props k
          = (match lastWrite k (namedWrites h o toks) with
            | some x => some x
            | none => getOwn retVal.props k) := by
  intro n
  induction n with
  | zero =>
    intro toks hn i retVal r hr
    have : toks = [] := List.length_eq_zero.mp (Nat.le_zero.mp hn)
    subst this
    simp [scan] at hr
    subst hr
    simp [namedWrites, lastWrite]
  | succ n ih =>
    intro toks hn i retVal r hr
    cases toks with
    | nil =>
      simp [scan] at hr
      subst hr
      simp [namedWrites, lastWrite]
    | cons arg rest =>
      have hlen : rest.length ≤ n := by simpa using hn
      unfold scan at hr
      unfold namedWrites
      cases hm : matchedPrefix o arg with
      | none =>
        simp only [hm] at hr ⊢
        cases hs : storePositional o retVal i (processValue h o (.index i) arg) with
        | error e => simp [hs] at hr
        | ok rv =>
          simp only [hs] at hr
          rw [ih rest hlen _ _ _ hr, getOwn_storePositional o retVal rv i _ k hk1 hs]
      | some p =>
        simp only [hm] at hr ⊢
        split at hr
        · rename_i hv
          simp only [hv, if_true]
          rw [lastWrite_cons, ih rest hlen _ _ _ hr, getOwn_assign _ _ _ _ hk2]
        · rename_i hv
          simp only [hv]
          cases rest with
          | nil =>
            simp only [] at hr ⊢
            simp at hr
            subst hr
            simp only [Bool.false_eq_true, if_false]
            rw [lastWrite_cons, getOwn_assign _ _ _ _ hk2]
            simp [lastWrite]
          | cons nextArg rest' =>
            simp only [] at hr ⊢
            simp only [Bool.false_eq_true, if_false]
            split at hr
            · rename_i hb
              simp only [hb, if_true]
              rw [lastWrite_cons, ih _ hlen _ _ _ hr, getOwn_assign _ _ _ _ hk2]
            · rename_i hb
              simp only [hb]
              simp only [Bool.false_eq_true, if_false]
              rw [lastWrite_cons, ih rest' (by simp at hlen; omega) _ _ _ hr,
                getOwn_assign _ _ _ _ hk2]

theorem lastWrite_of_split (k : JSString) (v : JSValue) :
    ∀ (ws ws' : List (JSString × JSValue)), (∀ kv ∈ ws', kv.1 ≠ k) →
      lastWrite k (ws ++ (k, v) :: ws') = some v := by
  have hnone : ∀ ws' : List (JSString × JSValue), (∀ kv ∈ ws', kv.1 ≠ k) →
      lastWrite k ws' = none := by
    intro ws'
    induction ws' with
    | nil => intro _; rfl
    | cons kv rest ih =>
      intro hl
      obtain ⟨a, b⟩ := kv
      have ha : a ≠ k := hl (a, b) (List.mem_cons_self _ _)
      simp [lastWrite, ih (fun kv hkv => hl kv (List.mem_cons_of_mem _ hkv)), ha]
  intro ws
  induction ws with
  | nil =>
    intro ws' hl
    simp [lastWrite, hnone ws' hl]
  | cons kv rest ih =>
    intro ws' hl
    obtain ⟨a, b⟩ := kv
    simp [lastWrite, ih ws' hl]

/-! ## The claims -/

/-- C1: with the default configuration the token list of the end-to-end scenario yields
exactly `positional: ["p-index-4", "p-index-7"]`, `test: true`, `testEquals: "equals_pass"`,
`testColon: "colon_pass"`, `testSpace: "space_pass"`, `double-hyphen: true`, `number: 123.5`
and `boolean: true`, on every host, whether the tokens come as `options.arguments` or, as in
`debug.js`, from the command line. -/
theorem C1_end_to_end (h : Host) :
    getProcessArgs h (tokensOnly ["-test", "-testEquals=equals_pass", "p-index-4",
        "-testColon:colon_pass", "p-index-7", "-testSpace", "space_pass", "--double-hyphen",
        "--number:123.5", "-boolean:true"])
      = .ok { proto := none, props := [
          (utf16 "positional",
            .array [some (.string (utf16 "p-index-4")), some (.string (utf16 "p-index-7"))]),
          (utf16 "test", .bool true),
          (utf16 "testEquals", .string (utf16 "equals_pass")),
          (utf16 "testColon", .string (utf16 "colon_pass")),
          (utf16 "testSpace", .string (utf16 "space_pass")),
          (utf16 "double-hyphen", .bool true),
          (utf16 "number", .number (.finite false 1235 (-1))),
          (utf16 "boolean", .bool true)] }
    ∧ getProcessArgs (withCommandLine h ["-test", "-testEquals=equals_pass", "p-index-4",
        "-testColon:colon_pass", "p-index-7", "-testSpace", "space_pass", "--double-hyphen",
        "--number:123.5", "-boolean:true"]) {}
      = .ok { proto := none, props := [
          (utf16 "positional",
            .array [some (.string (utf16 "p-index-4")), some (.string (utf16 "p-index-7"))]),
          (utf16 "test", .bool true),
          (utf16 "testEquals", .string (utf16 "equals_pass")),
          (utf16 "testColon", .string (utf16 "colon_pass")),
          (utf16 "testSpace", .string (utf16 "space_pass")),
          (utf16 "double-hyphen", .bool true),
          (utf16 "number", .number (.finite false 1235 (-1))),
          (utf16 "boolean", .bool true)] } := by
  constructor
  · rw [getProcessArgs_tokensOnly_host h plainHost _ (by decide!)]
    decide!
  · rw [getProcessArgs_commandLine_host h plainHost _ (by decide!)]
    decide!

/-- C2 (what the code does at the failing input): with the default configuration the tokens
`["--positional", "a", "b"]` make `getProcessArgs` throw a `TypeError` to its caller: the
look-ahead stores the string `"a"` under `positional`, and the positional token `"b"` then
calls `push` on that string. -/
theorem C2_throws_after_positional_overwritten (h : Host) :
    getProcessArgs h (tokensOnly ["--positional", "a", "b"]) = .error .typeError := by
  rw [getProcessArgs_tokensOnly_host h plainHost _ (by decide!)]
  decide!

/-- C3 as stated fails, in two ways.  Under the default configuration `--name` starts with
a configured prefix and holds no delimiter, and the next token `""` starts with no
configured prefix, yet the scan does not store the coercion of `""` under `name` and skip it:
the run on `["--name", ""]` gives `name: true` and classifies `""` on its own,
`positional: [0]`.  And `--name=` has no inline delimiter value, yet the run on
`["--name=", "v"]` stores `"v"` under `name=`, and nothing under the name `name`. -/
theorem C3_counterexample :
    (¬ (∀ (h : Host) (o : ProcessArgsOptions) (i : Nat) (tok next p : JSString)
        (rest : List JSString) (retVal : RetVal),
        matchedPrefix o tok = some p →
        getValue o (sliceFrom tok p.length) = none →
        (∀ q ∈ o.prefixes, startsWith next q = false) →
        scan h o i (tok :: next :: rest) retVal
          = scan h o (i + 2) rest
              (assign retVal (sliceFrom tok p.length)
                (processValue h o (.name (sliceFrom tok p.length)) next))))
      ∧ getProcessArgs plainHost (tokensOnly ["--name", ""])
          = .ok { props := [(utf16 "positional", .array [some (.number (.finite false 0 0))]),
                            (utf16 "name", .bool true)] }
      ∧ getProcessArgs plainHost (tokensOnly ["--name=", "v"])
          = .ok { props := [(utf16 "positional", .array []),
                            (utf16 "name=", .string (utf16 "v"))] } := by
  refine ⟨fun H => ?_, by decide!, by decide!⟩
  have hrun := H plainHost defaultOptions 0 (utf16 "--name") (utf16 "") (utf16 "--") []
    initialRetVal (by decide!) (by decide!) (by decide!)
  exact absurd hrun (by decide!)

/-- C3, amended: when a token starts with a configured prefix (`p` being the first one it
starts with), holds no configured delimiter after it, and is followed by a non-empty next
token that starts with no configured prefix, the scan assigns the coercion of the next token
to the argument's name, which is the token without its prefix, and goes on two tokens
further: the next token is not classified on its own, and unless the name is `positional`
the positional sequence is left as it was. -/
theorem C3_lookahead_consumes_next (h : Host) (o : ProcessArgsOptions) (i : Nat)
    (tok next p : JSString) (rest : List JSString) (retVal : RetVal)
    (hp : matchedPrefix o tok = some p)
    (hd : getValue o (sliceFrom tok p.length) = none)
    (hne : next ≠ [])
    (hnext : ∀ q ∈ o.prefixes, startsWith next q = false) :
    scan h o i (tok :: next :: rest) retVal
        = scan h o (i + 2) rest
            (assign retVal (sliceFrom tok p.length)
              (processValue h o (.name (sliceFrom tok p.length)) next))
      ∧ (sliceFrom tok p.length ≠ utf16 "positional" →
          readPositional (assign retVal (sliceFrom tok p.length)
              (processValue h o (.name (sliceFrom tok p.length)) next))
            = readPositional retVal) :=
  ⟨scan_lookahead h o i tok next p rest retVal hp (by rw [hd]; rfl) hne hnext,
   fun hk => readPositional_assign _ _ _ hk⟩

/-- C3, at the spec's input: `["--name", "value"]` yields `{ positional: [], name: "value" }`. -/
theorem C3_lookahead_witness :
    scan plainHost defaultOptions 0 [utf16 "--name", utf16 "value"] initialRetVal
      = .ok { props := [(utf16 "positional", .array []),
                        (utf16 "name", .string (utf16 "value"))] } :=
  (C3_lookahead_consumes_next plainHost defaultOptions 0 (utf16 "--name") (utf16 "value")
    (utf16 "--") [] initialRetVal (by decide!) (by decide!) (by decide!) (by decide!)).1.trans
    (by decide!)

/-- C4 (what the code does at the failing input): `--flag=` has no inline delimiter value
and is a bare flag, at the end of the input and before `--other` alike, but `true` is stored
under `flag=`, the token without its prefix, and the result has no field `flag`.  Where the
spec's inputs hold no delimiter the name is the key: `["--flag"]` and `["--flag", "--other"]`
yield `flag: true`. -/
theorem C4_bare_flag_key_keeps_delimiter (h : Host) :
    getProcessArgs h (tokensOnly ["--flag="])
        = .ok { props := [(utf16 "positional", .array []), (utf16 "flag=", .bool true)] }
      ∧ getProcessArgs h (tokensOnly ["--flag=", "--other"])
        = .ok { props := [(utf16 "positional", .array []), (utf16 "flag=", .bool true),
                          (utf16 "other", .bool true)] }
      ∧ getProcessArgs h (tokensOnly ["--flag"])
        = .ok { props := [(utf16 "positional", .array []), (utf16 "flag", .bool true)] }
      ∧ getProcessArgs h (tokensOnly ["--flag", "--other"])
        = .ok { props := [(utf16 "positional", .array []), (utf16 "flag", .bool true),
                          (utf16 "other", .bool true)] } := by
  refine ⟨?_, ?_, ?_, ?_⟩ <;>
    (rw [getProcessArgs_tokensOnly_host h plainHost _ (by decide!)]; decide!)

/-- C5 as stated fails.  On `["--positional=[]", "--positional=[]", "x"]` (host reading
`[]`) the last named token assigns the empty array to `positional`, and the result holds
`["x"]`: the positional token was pushed onto it.  On `["--__proto__=1", "--__proto__=2"]`
the last named token assigns `2` to `__proto__`, and the result holds no such property: the
inherited accessor drops a number.  So the statement fails as it stands, fails when only
`__proto__` is set aside, and fails when only `positional` is set aside. -/
theorem C5_counterexample :
    (¬ ∀ (h : Host) (options : RawOptions) (r : RetVal) (k : JSString) (v : JSValue)
        (ws ws' : List (JSString × JSValue)),
        getProcessArgs h options = .ok r →
        namedWrites h (ProcessArgsOptions.new h options)
          (ProcessArgsOptions.new h options).arguments = ws ++ (k, v) :: ws' →
        (∀ kv ∈ ws', kv.1 ≠ k) →
        getOwn r.props k = some v)
      ∧ (¬ ∀ (h : Host) (options : RawOptions) (r : RetVal) (k : JSString) (v : JSValue)
        (ws ws' : List (JSString × JSValue)),
        getProcessArgs h options = .ok r →
        k ≠ utf16 "__proto__" →
        namedWrites h (ProcessArgsOptions.new h options)
          (ProcessArgsOptions.new h options).arguments = ws ++ (k, v) :: ws' →
        (∀ kv ∈ ws', kv.1 ≠ k) →
        getOwn r.props k = some v)
      ∧ (¬ ∀ (h : Host) (options : RawOptions) (r : RetVal) (k : JSString) (v : JSValue)
        (ws ws' : List (JSString × JSValue)),
        getProcessArgs h options = .ok r →
        k ≠ utf16 "positional" →
        namedWrites h (ProcessArgsOptions.new h options)
          (ProcessArgsOptions.new h options).arguments = ws ++ (k, v) :: ws' →
        (∀ kv ∈ ws', kv.1 ≠ k) →
        getOwn r.props k = some v) := by
  refine ⟨fun H => ?_, fun H => ?_, fun H => ?_⟩
  · have hrun := H emptyArrayHost (tokensOnly ["--positional=[]", "--positional=[]", "x"])
      { props := [(utf16 "positional", .array [some (.string (utf16 "x"))])] }
      (utf16 "positional") (.array []) [(utf16 "positional", .array [])] []
      (by decide!) (by decide!) (by decide!)
    exact absurd hrun (by decide!)
  · have hrun := H emptyArrayHost (tokensOnly ["--positional=[]", "--positional=[]", "x"])
      { props := [(utf16 "positional", .array [some (.string (utf16 "x"))])] }
      (utf16 "positional") (.array []) [(utf16 "positional", .array [])] []
      (by decide!) (by decide!) (by decide!) (by decide!)
    exact absurd hrun (by decide!)
  · have hrun := H plainHost (tokensOnly ["--__proto__=1", "--__proto__=2"])
      { props := [(utf16 "positional", .array [])] }
      (utf16 "__proto__") (.number (.finite false 2 0))
      [(utf16 "__proto__", .number (.finite false 1 0))] []
      (by decide!) (by decide!) (by decide!) (by decide!)
    exact absurd hrun (by decide!)

/-- C5, amended: for every key other than `positional` and `__proto__`, when the run
returns a result, the value the result holds for that key is the value assigned by the last
named token that assigns it (`ws'`, the assignments made after it, holds none to that key),
whatever earlier tokens assigned. -/
theorem C5_last_write_wins (h : Host) (options : RawOptions) (r : RetVal) (k : JSString)
    (v : JSValue) (ws ws' : List (JSString × JSValue))
    (hr : getProcessArgs h options = .ok r)
    (hk1 : k ≠ utf16 "positional") (hk2 : k ≠ utf16 "__proto__")
    (hw : namedWrites h (ProcessArgsOptions.new h options)
      (ProcessArgsOptions.new h options).arguments = ws ++ (k, v) :: ws')
    (hlast : ∀ kv ∈ ws', kv.1 ≠ k) :
    getOwn r.props k = some v := by
  unfold getProcessArgs at hr
  simp only [] at hr
  rw [scan_getOwn h _ k hk1 hk2 _ _ (Nat.le_refl _) _ _ _ hr, hw,
    lastWrite_of_split k v ws ws' hlast]

/-- C5, at a concrete input: `["--a=1", "--a=2", "--b"]` makes the assignments `a = 1`,
`a = 2`, `b = true`, and the result holds `2` for `a`. -/
theorem C5_witness :
    getProcessArgs plainHost (tokensOnly ["--a=1", "--a=2", "--b"])
        = .ok { props := [(utf16 "positional", .array []),
                          (utf16 "a", .number (.finite false 2 0)),
                          (utf16 "b", .bool true)] }
      ∧ namedWrites plainHost defaultOptions [utf16 "--a=1", utf16 "--a=2", utf16 "--b"]
        = [(utf16 "a", .number (.finite false 1 0)), (utf16 "a", .number (.finite false 2 0)),
           (utf16 "b", .bool true)]
      ∧ getOwn [(utf16 "positional", JSValue.array []),
                (utf16 "a", .number (.finite false 2 0)),
                (utf16 "b", .bool true)] (utf16 "a")
        = some (.number (.finite false 2 0)) :=
  ⟨by decide!, by decide!,
   C5_last_write_wins plainHost (tokensOnly ["--a=1", "--a=2", "--b"])
    { props := [(utf16 "positional", .array []), (utf16 "a", .number (.finite false 2 0)),
                (utf16 "b", .bool true)] }
    (utf16 "a") (.number (.finite false 2 0)) [(utf16 "a", .number (.finite false 1 0))]
    [(utf16 "b", .bool true)] (by decide!) (by decide!) (by decide!) (by decide!)
    (by decide!)⟩

/-- C6 (what the code does at the failing input): with the default configuration the tokens
`["--positional", "x"]` return a mapping whose `positional` field is the string `"x"`, not a
sequence of positional values. -/
theorem C6_positional_overwritten (h : Host) :
    getProcessArgs h (tokensOnly ["--positional", "x"])
      = .ok { props := [(utf16 "positional", .string (utf16 "x"))] } := by
  rw [getProcessArgs_tokensOnly_host h plainHost _ (by decide!)]
  decide!

/-- C7 (what the code does at the failing input): the empty string is no case variant of
`true` or `false` and does not begin with `{` or `[`, and it is not returned unchanged: the
default coercion gives the number `0`.  At the spec's inputs the claim holds: `"123.5"`
becomes the number 123.5 (`1235 · 10⁻¹`) and `"NaNcity"` stays the string `"NaNcity"`. -/
theorem C7_empty_string_not_unchanged (h : Host) :
    toLocaleLowerCase [] ≠ utf16 "true"
      ∧ toLocaleLowerCase [] ≠ utf16 "false"
      ∧ charAt0 [] ≠ utf16 "\x7b"
      ∧ charAt0 [] ≠ utf16 "["
      ∧ ProcessArgsParser h (.string []) ≠ .ok (.string [])
      ∧ ProcessArgsParser h (.string (utf16 "123.5")) = .ok (.number (.finite false 1235 (-1)))
      ∧ ProcessArgsParser h (.string (utf16 "NaNcity")) = .ok (.string (utf16 "NaNcity")) := by
  refine ⟨by decide!, by decide!, by decide!, by decide!, ?_, ?_, ?_⟩
  · rw [ProcessArgsParser_plain h plainHost [] (by decide!)]
    decide!
  · rw [ProcessArgsParser_plain h plainHost _ (by decide!)]
    decide!
  · rw [ProcessArgsParser_plain h plainHost _ (by decide!)]
    decide!

/-- C8 (what the code does at the failing input): `isNaN("")` is false, so the default
coercion of the empty string is the number `0`, and an empty positional token is stored
as `0`. -/
theorem C8_empty_string_is_zero (h : Host) :
    ProcessArgsParser h (.string []) = .ok (.number (.finite false 0 0))
      ∧ getProcessArgs h (tokensOnly [""])
          = .ok { props := [(utf16 "positional", .array [some (.number (.finite false 0 0))])] } := by
  refine ⟨rfl, ?_⟩
  rw [getProcessArgs_tokensOnly_host h plainHost _ (by decide!)]
  decide!

/-- C9: a string whose lower-cased form is `"true"` is coerced to boolean `true`, and one
whose lower-cased form is `"false"` to boolean `false`, whatever its letter case. -/
theorem C9_boolean_case_insensitive (h : Host) (s : JSString) :
    (toLocaleLowerCase s = utf16 "true" → ProcessArgsParser h (.string s) = .ok (.bool true))
      ∧ (toLocaleLowerCase s = utf16 "false" →
          ProcessArgsParser h (.string s) = .ok (.bool false)) := by
  constructor
  · intro ht
    simp [ProcessArgsParser, isNaN_of_lower_true s ht, ht]
  · intro hf
    have hne : utf16 "false" ≠ utf16 "true" := by decide
    simp [ProcessArgsParser, isNaN_of_lower_false s hf, hf, hne]

/-- C9, at the spec's inputs: `"TRUE"`, `"True"` and `"true"` all give `true`, and `"FALSE"`
gives `false`. -/
theorem C9_witness :
    ProcessArgsParser plainHost (.string (utf16 "TRUE")) = .ok (.bool true)
      ∧ ProcessArgsParser plainHost (.string (utf16 "True")) = .ok (.bool true)
      ∧ ProcessArgsParser plainHost (.string (utf16 "true")) = .ok (.bool true)
      ∧ ProcessArgsParser plainHost (.string (utf16 "FALSE")) = .ok (.bool false) :=
  ⟨(C9_boolean_case_insensitive plainHost (utf16 "TRUE")).1 (by decide!),
   (C9_boolean_case_insensitive plainHost (utf16 "True")).1 (by decide!),
   (C9_boolean_case_insensitive plainHost (utf16 "true")).1 (by decide!),
   (C9_boolean_case_insensitive plainHost (utf16 "FALSE")).2 (by decide!)⟩

/-- C10: with default coercion, the value of an argument that begins with `{` or `[` is the
structure `JSON.parse` returns when the string is valid JSON, and the original string when
`JSON.parse` throws: the failure is caught inside `processValue`, which always returns. -/
theorem C10_json_or_original (h : Host) (o : ProcessArgsOptions) (name : ArgId) (v : JSString)
    (hd : o.getParser = none)
    (hv : charAt0 v = utf16 "\x7b" ∨ charAt0 v = utf16 "[") :
    (∀ parsed, h.jsonParse v = .ok parsed → processValue h o name v = parsed)
      ∧ (∀ e, h.jsonParse v = .error e → processValue h o name v = .string v) := by
  have hp := ProcessArgsParser_json h v hv
  constructor
  · intro parsed hj
    simp [processValue, selectParser, hd, hp, hj]
  · intro e hj
    simp [processValue, selectParser, hd, hp, hj]

/-- C10, at concrete inputs: on a host whose `JSON.parse` reads `[]`, the argument `--list=[]`
is stored as the empty array and `--list=[x` as the string `"[x"`. -/
theorem C10_witness :
    scan emptyArrayHost defaultOptions 0 [utf16 "--list=[]"] initialRetVal
        = .ok { props := [(utf16 "positional", .array []), (utf16 "list", .array [])] }
      ∧ scan emptyArrayHost defaultOptions 0 [utf16 "--list=[x"] initialRetVal
        = .ok { props := [(utf16 "positional", .array []),
                          (utf16 "list", .string (utf16 "[x"))] }
      ∧ processValue emptyArrayHost defaultOptions (.name (utf16 "list")) (utf16 "[]")
        = .array []
      ∧ processValue emptyArrayHost defaultOptions (.name (utf16 "list")) (utf16 "[x")
        = .string (utf16 "[x") :=
  ⟨by decide!, by decide!,
   (C10_json_or_original emptyArrayHost defaultOptions (.name (utf16 "list")) (utf16 "[]") rfl
      (Or.inr (by decide!))).1 _ (by decide!),
   (C10_json_or_original emptyArrayHost defaultOptions (.name (utf16 "list")) (utf16 "[x") rfl
      (Or.inr (by decide!))).2 .syntaxError (by decide!)⟩

/-- C11: with a hook `g`, whenever `g` returns a function `f` for an argument's identifier
and `f` returns `v` on the raw string, `v` is the coerced value, with no default coercion
around it; the identifier is the key for an inline value and for a look-ahead value, and the
token index `i` for a positional token, and `v` is what the loop stores. -/
theorem C11_custom_parser_verbatim (h : Host) (o : ProcessArgsOptions) (g : GetParser)
    (hg : o.getParser = some g) :
    (∀ (name : ArgId) (value : JSString) (f : CustomParser) (v : JSValue),
        g name = .ok (some f) → f value = .ok v → processValue h o name value = v)
      ∧ (∀ (i : Nat) (tok p value : JSString) (rest : List JSString) (retVal : RetVal)
          (f : CustomParser) (v : JSValue),
          matchedPrefix o tok = some p →
          getValue o (sliceFrom tok p.length) = some value → value ≠ [] →
          g (.name (slice (sliceFrom tok p.length) 0
            (((sliceFrom tok p.length).length : Int) - (value.length : Int) - 1)))
            = .ok (some f) →
          f value = .ok v →
          scan h o i (tok :: rest) retVal
            = scan h o (i + 1) rest
                (assign retVal (slice (sliceFrom tok p.length) 0
                  (((sliceFrom tok p.length).length : Int) - (value.length : Int) - 1)) v))
      ∧ (∀ (i : Nat) (tok next p : JSString) (rest : List JSString) (retVal : RetVal)
          (f : CustomParser) (v : JSValue),
          matchedPrefix o tok = some p →
          truthy (getValue o (sliceFrom tok p.length)) = false → next ≠ [] →
          (∀ q ∈ o.prefixes, startsWith next q = false) →
          g (.name (sliceFrom tok p.length)) = .ok (some f) →
          f next = .ok v →
          scan h o i (tok :: next :: rest) retVal
            = scan h o (i + 2) rest (assign retVal (sliceFrom tok p.length) v))
      ∧ (∀ (i : Nat) (tok : JSString) (rest : List JSString) (retVal : RetVal)
          (f : CustomParser) (v : JSValue),
          matchedPrefix o tok = none →
          g (.index i) = .ok (some f) →
          f tok = .ok v →
          scan h o i (tok :: rest) retVal
            = (match storePositional o retVal i v with
              | .ok retVal' => scan h o (i + 1) rest retVal'
              | .error e => .error e)) := by
  have hpv : ∀ (name : ArgId) (value : JSString) (f : CustomParser) (v : JSValue),
      g name = .ok (some f) → f value = .ok v → processValue h o name value = v := by
    intro name value f v hf hv
    rw [processValue_custom h o g name value f hg hf, hv]
  refine ⟨hpv, ?_, ?_, ?_⟩
  · intro i tok p value rest retVal f v hp hval hne hf hv
    rw [scan_inline_value h o i tok p value rest retVal hp hval hne, hpv _ _ f v hf hv]
  · intro i tok next p rest retVal f v hp hval hne hnext hf hv
    rw [scan_lookahead h o i tok next p rest retVal hp hval hne hnext, hpv _ _ f v hf hv]
  · intro i tok rest retVal f v hp hf hv
    rw [scan_positional h o i tok rest retVal hp, hpv _ _ f v hf hv]

/-- C11, at concrete inputs: with the identity as custom function `--n=123` stores the
string `"123"`, not the number; and a hook that tags values with the identifier it received
shows the names `n` and `m` and the token index `3`. -/
theorem C11_witness :
    processValue plainHost { defaultOptions with getParser := some identityHook }
        (.name (utf16 "n")) (utf16 "123") = .string (utf16 "123")
      ∧ getProcessArgs plainHost { tokensOnly ["--n=123"] with getParser := some identityHook }
        = .ok { props := [(utf16 "positional", .array []),
                          (utf16 "n", .string (utf16 "123"))] }
      ∧ getProcessArgs plainHost
          { tokensOnly ["--n=123", "--m", "v", "p"] with getParser := some taggingHook }
        = .ok { props := [
            (utf16 "positional",
              .array [some (.array [some (.number (.finite false 3 0)),
                                    some (.string (utf16 "p"))])]),
            (utf16 "n", .array [some (.string (utf16 "n")), some (.string (utf16 "123"))]),
            (utf16 "m", .array [some (.string (utf16 "m")), some (.string (utf16 "v"))])] } :=
  ⟨(C11_custom_parser_verbatim plainHost { defaultOptions with getParser := some identityHook }
      identityHook rfl).1 (.name (utf16 "n")) (utf16 "123") _ _ rfl rfl,
   by decide!, by decide!⟩

/-- C12: when the hook returns a function for the argument and that function throws on the
raw value, the error is caught and the coerced value is the raw string. -/
theorem C12_custom_parser_throws (h : Host) (o : ProcessArgsOptions) (g : GetParser)
    (name : ArgId) (value : JSString) (f : CustomParser) (e : JSError)
    (hg : o.getParser = some g) (hf : g name = .ok (some f)) (hv : f value = .error e) :
    processValue h o name value = .string value := by
  rw [processValue_custom h o g name value f hg hf, hv]

/-- C12, at concrete inputs: with a hook whose functions throw, the raw `"123"` is stored as
the string `"123"`, as a named value and as a positional one. -/
theorem C12_witness :
    processValue plainHost { defaultOptions with getParser := some throwingParserHook }
        (.name (utf16 "n")) (utf16 "123") = .string (utf16 "123")
      ∧ getProcessArgs plainHost
          { tokensOnly ["--n=123", "123"] with getParser := some throwingParserHook }
        = .ok { props := [(utf16 "positional", .array [some (.string (utf16 "123"))]),
                          (utf16 "n", .string (utf16 "123"))] } :=
  ⟨C12_custom_parser_throws plainHost
      { defaultOptions with getParser := some throwingParserHook } throwingParserHook
      (.name (utf16 "n")) (utf16 "123") (fun _ => .error (.thrown .undefined))
      (.thrown .undefined) rfl rfl rfl,
   by decide!⟩

/-- C13 as stated fails: with a hook that throws, the raw `"123"` is not stored as the string
`"123"` but as the number `123`, and the raw `"true"` as the boolean `true`: after the catch
of lines 111-113 the parser is still the default one. -/
theorem C13_counterexample :
    processValue plainHost { defaultOptions with getParser := some throwingHook }
        (.name (utf16 "n")) (utf16 "123") ≠ .string (utf16 "123")
      ∧ getProcessArgs plainHost
          { tokensOnly ["--n=123", "--b=true"] with getParser := some throwingHook }
        = .ok { props := [(utf16 "positional", .array []),
                          (utf16 "n", .number (.finite false 123 0)),
                          (utf16 "b", .bool true)] } :=
  ⟨by decide!, by decide!⟩

/-- C13, amended: when the hook throws for the argument, the error is caught and the value
is the default coercion of the raw string (the raw string itself only where that coercion
leaves it unchanged, or where `JSON.parse` throws). -/
theorem C13_hook_throws_default_coercion (h : Host) (o : ProcessArgsOptions) (g : GetParser)
    (name : ArgId) (value : JSString) (e : JSError)
    (hg : o.getParser = some g) (hf : g name = .error e) :
    processValue h o name value
      = (match ProcessArgsParser h (.string value) with
        | .ok v => v
        | .error _ => .string value) :=
  processValue_default h o name value (Or.inr ⟨g, hg, Or.inr ⟨e, hf⟩⟩)

/-- C13, at concrete inputs: with a hook that throws, the raw `"123"` becomes the number
`123`, the raw `"true"` the boolean `true`, and the raw `"abc"` stays the string `"abc"`. -/
theorem C13_witness :
    processValue plainHost { defaultOptions with getParser := some throwingHook }
        (.name (utf16 "n")) (utf16 "123") = .number (.finite false 123 0)
      ∧ processValue plainHost { defaultOptions with getParser := some throwingHook }
        (.name (utf16 "n")) (utf16 "true") = .bool true
      ∧ processValue plainHost { defaultOptions with getParser := some throwingHook }
        (.name (utf16 "n")) (utf16 "abc") = .string (utf16 "abc") :=
  ⟨(C13_hook_throws_default_coercion plainHost
      { defaultOptions with getParser := some throwingHook } throwingHook (.name (utf16 "n"))
      (utf16 "123") (.thrown .undefined) rfl rfl).trans (by decide!),
   (C13_hook_throws_default_coercion plainHost
      { defaultOptions with getParser := some throwingHook } throwingHook (.name (utf16 "n"))
      (utf16 "true") (.thrown .undefined) rfl rfl).trans (by decide!),
   (C13_hook_throws_default_coercion plainHost
      { defaultOptions with getParser := some throwingHook } throwingHook (.name (utf16 "n"))
      (utf16 "abc") (.thrown .undefined) rfl rfl).trans (by decide!)⟩

/-- C14 as stated fails: with `keepPositionalIndices` true the run on
`["--flag", "pos0", "pos1"]` has no `"pos0"` at index 1 of `positional`, and `flag` is not a
bare flag: `pos0` starts with no configured prefix, so the look-ahead rule gives it to `flag`
as its value. -/
theorem C14_counterexample :
    (¬ ∃ (r : RetVal) (items : List (Option JSValue)),
        getProcessArgs plainHost
            { tokensOnly ["--flag", "pos0", "pos1"] with keepPositionalIndices := .bool true }
          = .ok r
        ∧ readPositional r = .array items
        ∧ slotAt items 1 = some (.string (utf16 "pos0")))
      ∧ (¬ ∃ (r : RetVal),
        getProcessArgs plainHost
            { tokensOnly ["--flag", "pos0", "pos1"] with keepPositionalIndices := .bool true }
          = .ok r
        ∧ getOwn r.props (utf16 "flag") = some (.bool true)) := by
  have hrun : getProcessArgs plainHost
      { tokensOnly ["--flag", "pos0", "pos1"] with keepPositionalIndices := .bool true }
      = .ok { props := [(utf16 "positional", .array [none, none, some (.string (utf16 "pos1"))]),
                        (utf16 "flag", .string (utf16 "pos0"))] } := by decide!
  constructor
  · rintro ⟨r, items, hr, hitems, hslot⟩
    rw [hrun] at hr
    cases hr
    have hpos : readPositional
        { props := [(utf16 "positional", .array [none, none, some (.string (utf16 "pos1"))]),
                    (utf16 "flag", .string (utf16 "pos0"))] }
        = .array [none, none, some (.string (utf16 "pos1"))] := by decide!
    rw [hpos] at hitems
    cases hitems
    exact absurd hslot (by decide!)
  · rintro ⟨r, hr, hflag⟩
    rw [hrun] at hr
    cases hr
    exact absurd hflag (by decide!)

/-- C14, amended: with `keepPositionalIndices` true, default prefixes and delimiters, and
tokens `["--flag", "pos0", "pos1"]`, `flag` takes `"pos0"` as its value by look-ahead, and
`positional` holds `"pos1"` at index 2 with indices 0 and 1 absent. -/
theorem C14_keep_indices_after_lookahead (h : Host) :
    getProcessArgs h
        { tokensOnly ["--flag", "pos0", "pos1"] with keepPositionalIndices := .bool true }
      = .ok { props := [(utf16 "positional", .array [none, none, some (.string (utf16 "pos1"))]),
                        (utf16 "flag", .string (utf16 "pos0"))] } := by
  rw [getProcessArgs_host h plainHost _ _ rfl (by decide!)]
  decide!

theorem filterStrings_map (xs : List JSValue) :
    (filterStrings xs).map JSValue.string = xs.filter isString := by
  induction xs with
  | nil => rfl
  | cons x rest ih => cases x <;> simp [filterStrings, isString, ih]

/-- C15: for each of `arguments`, `prefixes` and `delimiters` supplied as an array, the
resolver keeps exactly the entries that are strings, in their order, and it reports nothing
(it is a total function with no other outcome); when `prefixes`, `delimiters` or
`keepPositionalIndices` are not supplied it yields `["--", "-"]`, `[":", "="]` and `false`. -/
theorem C15_resolver (h : Host) (options : RawOptions) :
    (∀ xs, options.arguments = some xs →
        (ProcessArgsOptions.new h options).arguments.map JSValue.string = xs.filter isString)
      ∧ (∀ xs, options.prefixes = some xs →
        (ProcessArgsOptions.new h options).prefixes.map JSValue.string = xs.filter isString)
      ∧ (∀ xs, options.delimiters = some xs →
        (ProcessArgsOptions.new h options).delimiters.map JSValue.string
          = xs.filter isString)
      ∧ (options.prefixes = none →
        (ProcessArgsOptions.new h options).prefixes = [utf16 "--", utf16 "-"])
      ∧ (options.delimiters = none →
        (ProcessArgsOptions.new h options).delimiters = [utf16 ":", utf16 "="])
      ∧ (options.keepPositionalIndices = .undefined →
        (ProcessArgsOptions.new h options).keepPositionalIndices = false) := by
  refine ⟨?_, ?_, ?_, ?_, ?_, ?_⟩
  · intro xs hx
    simp only [ProcessArgsOptions.new, hx, filterStrings_map]
  · intro xs hx
    simp only [ProcessArgsOptions.new, hx, filterStrings_map]
  · intro xs hx
    simp only [ProcessArgsOptions.new, hx, filterStrings_map]
  · intro hx
    simp only [ProcessArgsOptions.new, hx]
  · intro hx
    simp only [ProcessArgsOptions.new, hx]
  · intro hx
    simp only [ProcessArgsOptions.new, hx]

/-- C15, at a concrete input: from prefixes `[1, "+", null, "/"]` the resolver keeps `"+"` and
`"/"`, and with nothing else supplied the delimiters are `:` and `=` and
`keepPositionalIndices` is false. -/
theorem C15_witness :
    (ProcessArgsOptions.new plainHost
        { prefixes := some [.number (.finite false 1 0), .string (utf16 "+"), .null,
                            .string (utf16 "/")] }).prefixes
        = [utf16 "+", utf16 "/"]
      ∧ (ProcessArgsOptions.new plainHost
        { prefixes := some [.number (.finite false 1 0), .string (utf16 "+"), .null,
                            .string (utf16 "/")] }).delimiters
        = [utf16 ":", utf16 "="]
      ∧ (ProcessArgsOptions.new plainHost
        { prefixes := some [.number (.finite false 1 0), .string (utf16 "+"), .null,
                            .string (utf16 "/")] }).keepPositionalIndices
        = false :=
  ⟨by decide!,
   (C15_resolver plainHost
      { prefixes := some [.number (.finite false 1 0), .string (utf16 "+"), .null,
                          .string (utf16 "/")] }).2.2.2.2.1 rfl,
   (C15_resolver plainHost
      { prefixes := some [.number (.finite false 1 0), .string (utf16 "+"), .null,
                          .string (utf16 "/")] }).2.2.2.2.2 rfl⟩

/-- C16 as stated fails: the empty string is a configured delimiter that occurs in every
remainder, at index 0, and no delimiter occurs before it or is declared before it, yet
`getValue` does not return what follows it: with the delimiter list `[""]` and the remainder
`"a"` it returns no value, because line 133 skips an empty delimiter. -/
theorem C16_counterexample :
    (¬ ∀ (o : ProcessArgsOptions) (arg : JSString) (before : List JSString) (d : JSString)
        (after : List JSString),
        o.delimiters = before ++ d :: after → 0 ≤ indexOf arg d →
        (∀ d' ∈ before, 0 ≤ indexOf arg d' → indexOf arg d < indexOf arg d') →
        (∀ d' ∈ after, 0 ≤ indexOf arg d' → indexOf arg d ≤ indexOf arg d') →
        ∃ a v, arg = a ++ d ++ v ∧ ((a.length : Nat) : Int) = indexOf arg d
          ∧ getValue o arg = some v)
      ∧ indexOf (utf16 "a") (utf16 "") = 0
      ∧ getValue { defaultOptions with delimiters := [utf16 ""] } (utf16 "a") = none := by
  refine ⟨fun H => ?_, by decide!, by decide!⟩
  obtain ⟨a, v, _, _, hval⟩ := H { defaultOptions with delimiters := [utf16 ""] } (utf16 "a")
    [] (utf16 "") [] (by decide!) (by decide!) (by simp) (by simp)
  have hnone : getValue { defaultOptions with delimiters := [utf16 ""] } (utf16 "a") = none := by
    decide!
  rw [hnone] at hval
  exact absurd hval (by simp)

/-- C16, amended: among the configured delimiters that are not empty and occur in the
remainder, `getValue` selects the one whose first occurrence is at the lowest index, the one
declared earliest among those at that index, and returns what follows that occurrence; it
returns no value exactly when no non-empty configured delimiter occurs. -/
theorem C16_delimiter_selection (o : ProcessArgsOptions) (arg : JSString) :
    ((∀ d ∈ o.delimiters, d ≠ [] → indexOf arg d < 0) ↔ getValue o arg = none)
      ∧ (∀ (before : List JSString) (d : JSString) (after : List JSString),
          o.delimiters = before ++ d :: after → d ≠ [] → 0 ≤ indexOf arg d →
          (∀ d' ∈ before, d' ≠ [] → 0 ≤ indexOf arg d' → indexOf arg d < indexOf arg d') →
          (∀ d' ∈ after, d' ≠ [] → 0 ≤ indexOf arg d' → indexOf arg d ≤ indexOf arg d') →
          ∃ a v, arg = a ++ d ++ v ∧ ((a.length : Nat) : Int) = indexOf arg d
            ∧ (∀ a' v', arg = a' ++ d ++ v' → a.length ≤ a'.length)
            ∧ getValue o arg = some v) := by
  constructor
  · constructor
    · intro hall
      unfold getValue
      simp only [identifyDelimiter_unchanged arg o.delimiters _ hall]
      simp
    · intro hnone
      unfold getValue at hnone
      simp only at hnone
      by_cases hi : (identifyDelimiter arg o.delimiters { delimiter := [], index := -1 }).index
          ≥ 0
      · simp [hi] at hnone
      · exact (identifyDelimiter_none arg o.delimiters { delimiter := [], index := -1 }
          (by omega)).2
  · intro before d after hsplit hd hk hbefore hafter
    obtain ⟨a, v, harg, hidx⟩ := indexOfFrom_occurrence d arg 0 hk
    have hidx' : indexOf arg d = ((a.length : Nat) : Int) := by
      rw [indexOf, hidx]
      congr 1
      omega
    refine ⟨a, v, harg, hidx'.symm, ?_, ?_⟩
    · intro a' v' harg'
      have hfirst := (indexOfFrom_first d arg 0 a' v' harg').2
      rw [← indexOf, hidx'] at hfirst
      have : ((0 + a'.length : Nat) : Int) = ((a'.length : Nat) : Int) := by
        congr 1
        omega
      rw [this] at hfirst
      exact Int.ofNat_le.mp hfirst
    · have hsel := identifyDelimiter_select arg d after hd hk hafter before
        { delimiter := [], index := -1 } (Or.inl (by decide)) hbefore
      unfold getValue
      rw [hsplit]
      simp only [hsel, hk, ge_iff_le, if_true]
      rw [hidx']
      conv_lhs => rw [harg]
      rw [sliceFrom_after a d v]

/-- C16, at the spec's input: with the delimiters `[":", "="]` and the remainder `"a=1:2"`
the `=` at index 1 is selected, and the value is `"1:2"`. -/
theorem C16_witness :
    getValue defaultOptions (utf16 "a=1:2") = some (utf16 "1:2")
      ∧ (∃ a v, utf16 "a=1:2" = a ++ utf16 "=" ++ v
          ∧ ((a.length : Nat) : Int) = indexOf (utf16 "a=1:2") (utf16 "=")
          ∧ (∀ a' v', utf16 "a=1:2" = a' ++ utf16 "=" ++ v' → a.length ≤ a'.length)
          ∧ getValue defaultOptions (utf16 "a=1:2") = some v) :=
  ⟨by decide!,
   (C16_delimiter_selection defaultOptions (utf16 "a=1:2")).2 [utf16 ":"] (utf16 "=") []
      (by decide!) (by decide!) (by decide!) (by decide!) (by simp)⟩

/-- C17 (what the code does at the failing input): with the delimiter `::` the token
`--a::b` has its delimiter at index 1 of the remainder `a::b` and the value `b`, but the
value is stored under the key `a:`, the first two code units of the remainder: line 162
takes one code unit off for the delimiter, whatever its length. -/
theorem C17_key_holds_part_of_delimiter (h : Host) :
    indexOf (utf16 "a::b") (utf16 "::") = 1
      ∧ getProcessArgs h
          { tokensOnly ["--a::b"] with delimiters := some [.string (utf16 "::")] }
        = .ok { props := [(utf16 "positional", .array []),
                          (utf16 "a:", .string (utf16 "b"))] } := by
  refine ⟨by decide!, ?_⟩
  rw [getProcessArgs_host h plainHost _ _ rfl (by decide!)]
  decide!

/-- C18 (what the code does at the failing input): the token `--name=` is treated as having
no value, and the look-ahead rule and the bare-flag rule decide its value, but the value is
stored under `name=`, the whole remainder: `["--name=", "v"]` yields `name=: "v"` and
`["--name="]` yields `name=: true`, and neither result has a field `name`. -/
theorem C18_empty_inline_value_key (h : Host) :
    getProcessArgs h (tokensOnly ["--name=", "v"])
        = .ok { props := [(utf16 "positional", .array []),
                          (utf16 "name=", .string (utf16 "v"))] }
      ∧ getProcessArgs h (tokensOnly ["--name="])
        = .ok { props := [(utf16 "positional", .array []), (utf16 "name=", .bool true)] } := by
  constructor <;>
    (rw [getProcessArgs_tokensOnly_host h plainHost _ (by decide!)]; decide!)

/-- C19: a token is named exactly when it starts with some configured prefix; the prefix
taken off it is then the first one, in configured order, that it starts with, whatever the
lengths; the loop assigns a named token's value to a key cut from that remainder and stores
nothing in `positional` for it; and a token that starts with no configured prefix goes to the
positional branch. -/
theorem C19_first_prefix_wins (h : Host) (o : ProcessArgsOptions) (i : Nat)
    (tok : JSString) (rest : List JSString) (retVal : RetVal) :
    ((matchedPrefix o tok).isSome ↔ ∃ p ∈ o.prefixes, startsWith tok p = true)
      ∧ (∀ p, matchedPrefix o tok = some p →
          ∃ before after, o.prefixes = before ++ p :: after ∧ startsWith tok p = true
            ∧ ∀ q ∈ before, startsWith tok q = false)
      ∧ (∀ p, matchedPrefix o tok = some p →
          ∃ (v : JSValue) (n : Nat),
            scan h o i (tok :: rest) retVal
              = scan h o (i + 1 + n) (rest.drop n)
                  (assign retVal
                    (if truthy (getValue o (sliceFrom tok p.length)) then
                      slice (sliceFrom tok p.length) 0
                        (((sliceFrom tok p.length).length : Int)
                          - (((getValue o (sliceFrom tok p.length)).getD []).length : Int) - 1)
                    else sliceFrom tok p.length) v))
      ∧ ((∀ p ∈ o.prefixes, startsWith tok p = false) →
          scan h o i (tok :: rest) retVal
            = (match storePositional o retVal i (processValue h o (.index i) tok) with
              | .ok retVal' => scan h o (i + 1) rest retVal'
              | .error e => .error e)) := by
  refine ⟨?_, ?_, ?_, ?_⟩
  · simp [matchedPrefix]
  · intro p hp
    obtain ⟨hs, before, after, hsplit, hnot⟩ := List.find?_eq_some.mp hp
    exact ⟨before, after, hsplit, hs, fun q hq => by simpa using hnot q hq⟩
  · intro p hp
    by_cases hv : truthy (getValue o (sliceFrom tok p.length)) = true
    · refine ⟨processValue h o
          (.name (slice (sliceFrom tok p.length) 0
            (((sliceFrom tok p.length).length : Int)
              - (((getValue o (sliceFrom tok p.length)).getD []).length : Int) - 1)))
          ((getValue o (sliceFrom tok p.length)).getD []), 0, ?_⟩
      rw [scan]
      simp [hp, hv]
    · have hv' : truthy (getValue o (sliceFrom tok p.length)) = false := by simpa using hv
      cases rest with
      | nil =>
        refine ⟨.bool true, 0, ?_⟩
        rw [scan]
        simp [hp, hv', scan]
      | cons next rest' =>
        by_cases hb : isBareFlag o (some next) = true
        · refine ⟨.bool true, 0, ?_⟩
          rw [scan]
          simp [hp, hv', hb]
        · refine ⟨processValue h o (.name (sliceFrom tok p.length)) next, 1, ?_⟩
          rw [scan]
          simp [hp, hv', hb]
  · intro hnone
    have hm : matchedPrefix o tok = none := by
      simp only [matchedPrefix, List.find?_eq_none]
      intro q hq
      simp [hnone q hq]
    exact scan_positional h o i tok rest retVal hm

/-- C19, at the spec's input: with prefixes `["-", "--"]` the token `--x=1` loses `-` only,
and its value is stored under the name `-x`; with the default prefixes it loses `--`. -/
theorem C19_witness :
    matchedPrefix { defaultOptions with prefixes := [utf16 "-", utf16 "--"] } (utf16 "--x=1")
        = some (utf16 "-")
      ∧ getProcessArgs plainHost
          { tokensOnly ["--x=1", "y"] with
            prefixes := some [.string (utf16 "-"), .string (utf16 "--")] }
        = .ok { props := [(utf16 "positional", .array [some (.string (utf16 "y"))]),
                          (utf16 "-x", .number (.finite false 1 0))] }
      ∧ getProcessArgs plainHost (tokensOnly ["--x=1", "y"])
        = .ok { props := [(utf16 "positional", .array [some (.string (utf16 "y"))]),
                          (utf16 "x", .number (.finite false 1 0))] }
      ∧ (∃ before after,
          [utf16 "-", utf16 "--"] = before ++ utf16 "-" :: after
            ∧ startsWith (utf16 "--x=1") (utf16 "-") = true
            ∧ ∀ q ∈ before, startsWith (utf16 "--x=1") q = false) :=
  ⟨by decide!, by decide!, by decide!,
   (C19_first_prefix_wins plainHost
      { defaultOptions with prefixes := [utf16 "-", utf16 "--"] } 0 (utf16 "--x=1") []
      initialRetVal).2.1 (utf16 "-") (by decide!)⟩

/-- C20: for every host and options, when no named argument's key is `positional`, the
runs with `keepPositionalIndices` true and false both return, with the same prototype and
the same fields but for `positional`; in the first run slot `j` of `positional` holds the
coercion of token `j` under the identifier `j` when the role of token `j` is positional, and
is empty otherwise; in the second run `positional` is that sequence without its empty slots,
in the same order.  Every token has a role, and a token whose role is positional starts with
no configured prefix. -/
theorem C20_keep_modes (h : Host) (options : RawOptions)
    (hkeys : ∀ kv ∈ namedWrites h (ProcessArgsOptions.new h options)
      (ProcessArgsOptions.new h options).arguments, kv.1 ≠ utf16 "positional") :
    ∃ (rT rF : RetVal) (itemsT : List (Option JSValue)),
      getProcessArgs h { options with keepPositionalIndices := .bool true } = .ok rT
      ∧ getProcessArgs h { options with keepPositionalIndices := .bool false } = .ok rF
      ∧ readPositional rT = .array itemsT
      ∧ readPositional rF = .array (itemsT.filter Option.isSome)
      ∧ rF.proto = rT.proto
      ∧ (∀ k, k ≠ utf16 "positional" → getOwn rF.props k = getOwn rT.props k)
      ∧ rF = withoutHoles rT itemsT
      ∧ (∀ (j : Nat), slotAt itemsT j
          = (match (roles (ProcessArgsOptions.new h options)
                (ProcessArgsOptions.new h options).arguments)[j]? with
            | some (t, .positional) =>
              some (processValue h (ProcessArgsOptions.new h options) (.index j) t)
            | _ => none))
      ∧ (roles (ProcessArgsOptions.new h options)
            (ProcessArgsOptions.new h options).arguments).length
          = (ProcessArgsOptions.new h options).arguments.length
      ∧ (∀ (j : Nat) (t : JSString), (roles (ProcessArgsOptions.new h options)
            (ProcessArgsOptions.new h options).arguments)[j]? = some (t, Role.positional) →
          (ProcessArgsOptions.new h options).arguments[j]? = some t
            ∧ matchedPrefix (ProcessArgsOptions.new h options) t = none) := by
  obtain ⟨r, items', hsT, hr, hsF, _, hhigh⟩ :=
    keepModes_agree h (ProcessArgsOptions.new h options) _
      (ProcessArgsOptions.new h options).arguments (Nat.le_refl _) 0 initialRetVal []
      (by decide!) (Nat.le_refl _) hkeys
  have hinit : withoutHoles initialRetVal [] = initialRetVal := by decide!
  rw [hinit] at hsF
  have hown := getOwn_positional_of_read r items' hr
  obtain ⟨hlen, hrole⟩ := roles_tokens (ProcessArgsOptions.new h options) _
    (ProcessArgsOptions.new h options).arguments (Nat.le_refl _)
  refine ⟨r, withoutHoles r items', items', hsT, hsF, hr, ?_, rfl, ?_, rfl, ?_, hlen, ?_⟩
  · simp [readPositional, withoutHoles, getOwn_setOwn]
  · intro k hk
    have hk' : ¬ utf16 "positional" = k := fun e => hk e.symm
    simp [withoutHoles, getOwn_setOwn, hk']
  · intro j
    have hj := hhigh j
    simp only [Nat.zero_add, expectedSlot] at hj
    exact hj
  · intro j t hj
    obtain ⟨tok, htok, hp, _, _⟩ := hrole j t .positional hj
    obtain ⟨ht, hm⟩ := hp rfl
    subst ht
    exact ⟨htok, hm⟩

/-- C20, at a concrete input: on `["a", "--x", "b", "c", "--flag", "--y=1", "d"]` the tokens
0, 3 and 6 are positional (`b` is taken by `--x`); with original indices kept `positional` is
`["a", , , "c", , , "d"]`, without them it is `["a", "c", "d"]`, and the named fields are the
same. -/
theorem C20_witness :
    getProcessArgs plainHost
        { tokensOnly ["a", "--x", "b", "c", "--flag", "--y=1", "d"] with
          keepPositionalIndices := .bool true }
      = .ok { props := [
          (utf16 "positional",
            .array [some (.string (utf16 "a")), none, none, some (.string (utf16 "c")), none,
                    none, some (.string (utf16 "d"))]),
          (utf16 "x", .string (utf16 "b")),
          (utf16 "flag", .bool true),
          (utf16 "y", .number (.finite false 1 0))] }
    ∧ getProcessArgs plainHost
        { tokensOnly ["a", "--x", "b", "c", "--flag", "--y=1", "d"] with
          keepPositionalIndices := .bool false }
      = .ok { props := [
          (utf16 "positional",
            .array [some (.string (utf16 "a")), some (.string (utf16 "c")),
                    some (.string (utf16 "d"))]),
          (utf16 "x", .string (utf16 "b")),
          (utf16 "flag", .bool true),
          (utf16 "y", .number (.finite false 1 0))] }
    ∧ (roles defaultOptions
        [utf16 "a", utf16 "--x", utf16 "b", utf16 "c", utf16 "--flag", utf16 "--y=1", utf16 "d"]).map
          Prod.snd
      = [.positional, .named, .lookAhead, .positional, .named, .named, .positional]
    ∧ (∃ (rT rF : RetVal) (itemsT : List (Option JSValue)),
        getProcessArgs plainHost
            { tokensOnly ["a", "--x", "b", "c", "--flag", "--y=1", "d"] with
              keepPositionalIndices := .bool true } = .ok rT
        ∧ getProcessArgs plainHost
            { tokensOnly ["a", "--x", "b", "c", "--flag", "--y=1", "d"] with
              keepPositionalIndices := .bool false } = .ok rF
        ∧ readPositional rT = .array itemsT
        ∧ readPositional rF = .array (itemsT.filter Option.isSome)
        ∧ rF = withoutHoles rT itemsT) := by
  refine ⟨by decide!, by decide!, by decide!, ?_⟩
  obtain ⟨rT, rF, itemsT, h1, h2, h3, h4, _, _, h7, _⟩ :=
    C20_keep_modes plainHost (tokensOnly ["a", "--x", "b", "c", "--flag", "--y=1", "d"])
      (by decide!)
  exact ⟨rT, rF, itemsT, h1, h2, h3, h4, h7⟩

end ProcessArgs
